import Mathlib

/-!
Verification of the backup-index engine of `medusa/storage/__init__.py`.

Python strings are modelled as `List Char` (Python compares strings by code
points, and Lean `Char` literals are code points).  The two module-level
regular expressions

  INDEX_BLOB_NAME_PATTERN           = `.*(tokenmap|schema|manifest|differential|incremental)_(.*)$`
  INDEX_BLOB_WITH_TIMESTAMP_PATTERN = `.*(started|finished)_(.*)_([0-9]+).timestamp$`

are embedded as executable matchers that reproduce Python `re.match`
backtracking semantics: a greedy `.*` tries the latest start position first
and cannot cross a newline, alternatives are tried left to right, a greedy
group gives back characters one at a time, the unescaped `.` before
`timestamp` matches any non-newline character, and `$` accepts the end of the
string or a single trailing newline.
-/

namespace MedusaStorage

/-- Blob names and key fragments, modelled as lists of characters. -/
abbrev Str := List Char

/-- Python's substring operator `pat in s` on strings. -/
def hasSub (pat : Str) : Str → Bool
  | [] => pat.isPrefixOf []
  | c :: rest => pat.isPrefixOf (c :: rest) || hasSub pat rest

/-- Structural worker for `removeAll`; the fuel dominates the length of the
string, so the recursion is structural and computable by the kernel. -/

def removeAllFuel (pat : Str) : Nat → Str → Str
  | _, [] => []
  | 0, s => s
  | fuel + 1, c :: rest =>
    if pat.isPrefixOf (c :: rest) then removeAllFuel pat fuel (rest.drop (pat.length - 1))
    else c :: removeAllFuel pat fuel rest

/-- One `str.replace(pat, "")` pass: scan left to right, removing
non-overlapping occurrences of `pat`. -/

def removeAll (pat : Str) (s : Str) : Str := removeAllFuel pat s.length s

def jsonExt : Str := ".json".toList

def cqlExt : Str := ".cql".toList

def txtExt : Str := ".txt".toList

def timestampExt : Str := ".timestamp".toList

/-- `Storage.remove_extension`: sequentially deletes every occurrence of
".json", ".cql", ".txt" and ".timestamp" (in that order, the dict order of
the source). -/

def removeExtension (s : Str) : Str :=
  removeAll timestampExt (removeAll txtExt (removeAll cqlExt (removeAll jsonExt s)))

/-- The alternatives of `INDEX_BLOB_NAME_PATTERN`, in source order. -/
def genericKinds : List Str :=
  ["tokenmap".toList, "schema".toList, "manifest".toList,
   "differential".toList, "incremental".toList]

/-- The alternatives of `INDEX_BLOB_WITH_TIMESTAMP_PATTERN`, in source order. -/
def tsKinds : List Str := ["started".toList, "finished".toList]

def tsWord : Str := "timestamp".toList

/-- A final `(.*)$`: the greedy group captures the longest newline-free
prefix, and `$` accepts the end of the string or one trailing newline. -/

def dollarGroup (t : Str) : Option Str :=
  let xs := t.takeWhile (fun c => c != '\n')
  let r := t.drop xs.length
  if r == [] || r == ['\n'] then some xs else none

/-- The `.timestamp$` tail after group 3: the unescaped `.` matches any
non-newline character. -/

def tsEnd (t : Str) : Bool :=
  match t with
  | c :: rest => c != '\n' && (rest == tsWord || rest == tsWord ++ ['\n'])
  | [] => false

/-- The `([0-9]+).timestamp$` tail: greedy digits, giving back one digit at a
time until the rest of the pattern matches. -/

def tsDigits (t : Str) : Option Str :=
  let ds := t.takeWhile Char.isDigit
  (List.range ds.length).reverse.findSome? fun i =>
    if tsEnd (t.drop (i + 1)) then some (t.take (i + 1)) else none

/-- The `(.*)_([0-9]+).timestamp$` part: the greedy group 2 prefers the
rightmost underscore whose tail parses, and cannot consume a newline. -/

def tsMid : Str → Option (Str × Str)
  | [] => none
  | c :: rest =>
    if c = '\n' then none
    else
      match tsMid rest with
      | some (g2, g3) => some (c :: g2, g3)
      | none => if c = '_' then (tsDigits rest).map (fun g3 => (([] : Str), g3)) else none

/-- One alternative `<kind>_` of the timestamp pattern, anchored at the
current position. -/

def tsAlt (k : Str) (s : Str) : Option (Str × Str × Str) :=
  if (k ++ ['_']).isPrefixOf s then
    (tsMid (s.drop (k.length + 1))).map fun p => (k, p.1, p.2)
  else none

/-- `(started|finished)_(.*)_([0-9]+).timestamp$` anchored at the current
position (alternatives tried in source order). -/

def tsMatchAt (s : Str) : Option (Str × Str × Str) :=
  match tsAlt "started".toList s with
  | some r => some r
  | none => tsAlt "finished".toList s

/-- The leading greedy `.*` of both patterns: try the latest start position
first (backtracking towards the front), never crossing a newline. -/

def scanBack {γ : Type} (matchAt : Str → Option γ) : Str → Option γ
  | [] => none
  | c :: rest =>
    if c = '\n' then matchAt (c :: rest)
    else
      match scanBack matchAt rest with
      | some r => some r
      | none => matchAt (c :: rest)

/-- `INDEX_BLOB_WITH_TIMESTAMP_PATTERN.match`. -/
def tsMatch : Str → Option (Str × Str × Str) := scanBack tsMatchAt

/-- One alternative `<kind>_` of the generic pattern, anchored at the current
position. -/

def genAlt (k : Str) (s : Str) : Option (Str × Str) :=
  if (k ++ ['_']).isPrefixOf s then
    (dollarGroup (s.drop (k.length + 1))).map fun g2 => (k, g2)
  else none

/-- `(tokenmap|schema|manifest|differential|incremental)_(.*)$` anchored at
the current position (alternatives tried in source order). -/

def genericMatchAt (s : Str) : Option (Str × Str) :=
  match genAlt "tokenmap".toList s with
  | some r => some r
  | none =>
    match genAlt "schema".toList s with
    | some r => some r
    | none =>
      match genAlt "manifest".toList s with
      | some r => some r
      | none =>
        match genAlt "differential".toList s with
        | some r => some r
        | none => genAlt "incremental".toList s

/-- `INDEX_BLOB_NAME_PATTERN.match`. -/
def genericMatch : Str → Option (Str × Str) := scanBack genericMatchAt

/-- Failures that can escape the listing machinery.  `malformedKey` is the
assertion failure of the decoders (the `MalformedKeyError` of the spec),
`badPathShape` an IndexError/ValueError from splitting a key on '/',
`dictKeyMiss` a KeyError, `unboundLocal` the UnboundLocalError reachable when
the tokenmap owner decoded from the file name differs from the grouping key,
and `removalFailure` a propagated index-cleanup failure. -/

inductive ListingError where
  | malformedKey
  | badPathShape
  | dictKeyMiss
  | unboundLocal
  | removalFailure
deriving DecidableEq, Repr

/-- `Storage.get_fqdn_from_any_index_blob` on a blob name: the timestamp
pattern is tried first, then the generic pattern; extensions are stripped
from group 2; if neither matches, the assertion fails. -/

def decodeOwnerE (name : Str) : Except ListingError Str :=
  match tsMatch name with
  | some (_, g2, _) => .ok (removeExtension g2)
  | none =>
    match genericMatch name with
    | some (_, g2) => .ok (removeExtension g2)
    | none => .error .malformedKey

def digitVal (c : Char) : Nat := c.toNat - 48

/-- Python `int` on the decimal digit string captured as group 3. -/
def parseDigits (s : Str) : Nat := s.foldl (fun a c => 10 * a + digitVal c) 0

/-- `Storage.get_timestamp_from_blob_name`. -/
def getTimestampE (name : Str) : Except ListingError Nat :=
  match tsMatch name with
  | some (_, _, g3) => .ok (parseDigits g3)
  | none => .error .malformedKey

inductive RemovalResult where
  | ok
  | invalidCreds
  | other
deriving DecidableEq, Repr

/-- The yield loop closing `Storage.list_node_backups` (source lines 199-226):
walks the started-sorted candidates carrying the `previous_existed` flag.
`exq nb` is the outcome of the storage probe `nb.exists()` and `rm nb` the
outcome of `remove_backup_from_index(nb)`; both are external storage calls,
abstracted as oracles.  Returns the backups yielded by the generator, the
backups probed with `exists()`, the backups for which removal was invoked,
and the exception that aborted the generator, if any (an exception other
than `InvalidCredsError` propagates out of the generator, so nothing after
it is yielded). -/

def walkBackups {α : Type} (exq : α → Bool) (rm : α → RemovalResult) :
    List α → Bool → (List α × List α × List α × Option ListingError)
  | [], _ => ([], [], [], none)
  | nb :: rest, prev =>
    if prev then
      let (y, c, r, e) := walkBackups exq rm rest true
      (nb :: y, c, r, e)
    else if exq nb then
      let (y, c, r, e) := walkBackups exq rm rest true
      (nb :: y, nb :: c, r, e)
    else
      match rm nb with
      | .other => ([], [nb], [nb], some .removalFailure)
      | _ =>
        let (y, c, r, e) := walkBackups exq rm rest false
        (y, nb :: c, nb :: r, e)

/-- Once `previous_existed` is set, every remaining backup is yielded and no
further `exists()` probe or removal happens. -/

instance {ε α : Type} [DecidableEq ε] [DecidableEq α] : DecidableEq (Except ε α) := fun a b =>
  match a, b with
  | .ok x, .ok y =>
    if h : x = y then .isTrue (congrArg Except.ok h)
    else .isFalse (fun hc => h (Except.ok.inj hc))
  | .error x, .error y =>
    if h : x = y then .isTrue (congrArg Except.error h)
    else .isFalse (fun hc => h (Except.error.inj hc))
  | .ok _, .error _ => .isFalse (fun hc => Except.noConfusion hc)
  | .error _, .ok _ => .isFalse (fun hc => Except.noConfusion hc)

/-- Python tuple comparison of two (string, string) sort keys. -/
def keyPairLe (a b : Str × Str) : Prop :=
  a.1 < b.1 ∨ (a.1 = b.1 ∧ a.2 ≤ b.2)

instance : DecidableRel keyPairLe := fun a b =>
  inferInstanceAs (Decidable (a.1 < b.1 ∨ (a.1 = b.1 ∧ a.2 ≤ b.2)))

/-- `blob.name.split('/')[2]`: the backup-name extractor used as the outer
grouping key (IndexError when the name has fewer than three segments). -/

def getBackupName (name : Str) : Except ListingError Str :=
  match (name.splitOn '/').get? 2 with
  | some bn => .ok bn
  | none => .error .badPathShape

/-- `name_and_fqdn`, the sort key of `group_backup_index_by_backup_and_node`
(the tuple is evaluated left to right, as in Python). -/

def nameAndFqdn (name : Str) : Except ListingError (Str × Str) := do
  let bn ← getBackupName name
  let f ← decodeOwnerE name
  pure (bn, f)

/-- `itertools.groupby`: consecutive runs of equal keys. -/
def groupRunsBy {α β : Type} (key : α → β) [DecidableEq β] (l : List α) :
    List (β × List α) :=
  l.foldr
    (fun x gs =>
      match gs with
      | (k, run) :: gs' =>
        if key x = k then (k, x :: run) :: gs' else (key x, [x]) :: (k, run) :: gs'
      | [] => [(key x, [x])])
    []

/-- One blob paired with its sort key, as computed inside Python `sorted`. -/
def keyedBlob (b : Str) : Except ListingError ((Str × Str) × Str) := do
  let k ← nameAndFqdn b
  pure (k, b)

/-- `Storage.group_backup_index_by_backup_and_node`: compute the sort key of
every index blob (Python's `sorted` computes all keys up front, so the first
malformed blob aborts), sort by (backup_name, fqdn), then group consecutively
by backup name and, within each backup, by fqdn. -/

def groupBackupIndex (blobs : List Str) :
    Except ListingError (List (Str × List (Str × List Str))) := do
  let keyed ← blobs.mapM keyedBlob
  let sortedKeyed := keyed.insertionSort (fun a b => keyPairLe a.1 b.1)
  let outer := groupRunsBy (fun kb => kb.1.1) sortedKeyed
  pure (outer.map (fun g =>
    (g.1, (groupRunsBy (fun kb => kb.1.2) g.2).map (fun h => (h.1, h.2.map (·.2))))))

/-- Dictionary lookup (association list built by the grouping). -/
def lookupA {β : Type} (m : List (Str × β)) (k : Str) : Option β :=
  (m.find? (fun p => p.1 == k)).map (·.2)

/-- `Storage.lookup_blob`: first blob of the node's list whose name contains
the chunk as a substring, if any. -/

def lookupBlob (group : List Str) (chunk : Str) : Option Str :=
  (group.filter (fun b => hasSub chunk b)).head?

/-- `get_all_backup_blob_names`: names of index blobs containing "tokenmap". -/
def allBackupBlobNames (blobs : List Str) : List Str :=
  blobs.filter (fun b => hasSub "tokenmap".toList b)

/-- `get_blobs_for_fqdn`: Python `fqdn in b` is a substring test on the whole
blob name. -/

def getBlobsForFqdn (blobs : List Str) (fqdn : Str) : List Str :=
  blobs.filter (fun b => hasSub fqdn b)

/-- The arguments `list_node_backups` passes to the `NodeBackup` constructor
for one index entry. -/

structure NodeBackupRec where
  fqdn : Str
  name : Str
  manifestBlob : Option Str
  schemaBlob : Option Str
  tokenmapBlob : Option Str
  startedBlob : Option Str
  finishedBlob : Option Str
  startedTs : Option Nat
  finishedTs : Option Nat
  differentialBlob : Option Str
deriving DecidableEq, Repr

/-- Construction of one `NodeBackup` candidate from a tokenmap index entry
(source lines 160-190).  The entry must split into exactly four segments
(Python tuple unpacking); the owner is decoded from the tokenmap file name;
if that owner is not a key of the inner grouping dict, the source reads the
uninitialized local `differential_blob` (UnboundLocalError). -/

def buildEntry (grouped : List (Str × List (Str × List Str))) (entry : Str) :
    Except ListingError NodeBackupRec :=
  match entry.splitOn '/' with
  | [_, _, backupName, tokenmapFile] =>
    (decodeOwnerE tokenmapFile).bind (fun tokenmapFqdn =>
      match lookupA grouped backupName with
      | none => .error .dictKeyMiss
      | some byNode =>
        match lookupA byNode tokenmapFqdn with
        | none => .error .unboundLocal
        | some group => do
          let manifestBlob := lookupBlob group "manifest".toList
          let schemaBlob := lookupBlob group "schema".toList
          let tokenmapBlob := lookupBlob group "tokenmap".toList
          let startedBlob := lookupBlob group "started".toList
          let finishedBlob := lookupBlob group "finished".toList
          let differentialBlob := lookupBlob group "differential".toList
          let incrementalBlob := lookupBlob group "incremental".toList
          let startedTs ← match startedBlob with
            | some b => (getTimestampE b).map some
            | none => pure none
          let finishedTs ← match finishedBlob with
            | some b => (getTimestampE b).map some
            | none => pure none
          pure { fqdn := tokenmapFqdn, name := backupName,
                 manifestBlob, schemaBlob, tokenmapBlob,
                 startedBlob, finishedBlob, startedTs, finishedTs,
                 differentialBlob :=
                   match differentialBlob with
                   | some d => some d
                   | none => incrementalBlob })
  | _ => .error .badPathShape

/-- The candidate-construction phase of `Storage.list_node_backups` (source
lines 142-197): group the index, select tokenmap entries, optionally filter
by fqdn, build the candidates, keep those whose start time is known, and
sort them by start time ascending.  (The sort key uses `getD 0`; every kept
candidate has `startedTs.isSome`, so this agrees with Python's int sort.) -/

def buildNodeBackups (fqdnF : Option Str) (blobs : List Str) :
    Except ListingError (List NodeBackupRec) := do
  let grouped ← groupBackupIndex blobs
  let allNames := allBackupBlobNames blobs
  let relevant := match fqdnF with
    | some f => getBlobsForFqdn allNames f
    | none => allNames
  let nodeBackups ← relevant.mapM (buildEntry grouped)
  pure ((nodeBackups.filter (fun nb => nb.startedTs.isSome)).insertionSort
    (fun a b => a.startedTs.getD 0 ≤ b.startedTs.getD 0))

/-- `Storage.list_node_backups` end to end: the construction phase runs on
the first pull from the generator (a failure there aborts with nothing
yielded), then the yield loop walks the sorted candidates. -/

def listNodeBackups (exq : NodeBackupRec → Bool) (rm : NodeBackupRec → RemovalResult)
    (fqdnF : Option Str) (blobs : List Str) :
    List NodeBackupRec × List NodeBackupRec × List NodeBackupRec × Option ListingError :=
  match buildNodeBackups fqdnF blobs with
  | .error e => ([], [], [], some e)
  | .ok l => walkBackups exq rm l false

def isOkE {ε α : Type} : Except ε α → Bool
  | .ok _ => true
  | .error _ => false

def metaWord : Str := "meta".toList

def schemaSuffix : Str := "/schema.cql".toList

/-- `is_schema_blob`: `blob.name.endswith('/schema.cql')`. -/
def isSchemaBlob (name : Str) : Bool := schemaSuffix.isSuffixOf name

/-- `get_backup_name_from_blob`: the first two components of
`pathlib.Path(blob.name).parts`, modelled as the nonempty '/'-separated
segments (for the relative, dot-free keys of this store `Path.parts` is
exactly that); fewer than two parts is the unpacking ValueError. -/

def firstTwoParts (name : Str) : Option (Str × Str) :=
  match (name.splitOn '/').filter (fun p => p != []) with
  | f :: n :: _ => some (f, n)
  | _ => none

def partsKeyed (b : Str) : Except ListingError ((Str × Str) × Str) :=
  match firstTwoParts b with
  | some k => .ok (k, b)
  | none => .error .badPathShape

/-- `Storage.discover_node_backups`: keep the blobs whose name contains
"meta", sort them by name, group consecutively by (fqdn, backup name), and
yield one (fqdn, backup name, blobs) triple per group that contains a blob
ending in "/schema.cql". -/

def discoverNodeBackups (blobs : List Str) :
    Except ListingError (List (Str × Str × List Str)) :=
  (((blobs.filter (fun b => hasSub metaWord b)).insertionSort
      (fun a b => a ≤ b)).mapM partsKeyed).map
    (fun keyed =>
      ((groupRunsBy (fun kb => kb.1) keyed).filter
          (fun g => g.2.any (fun kb => isSchemaBlob kb.2))).map
        (fun g => (g.1.1, g.1.2, g.2.map (fun kb => kb.2))))

-- Provider identifiers are the libcloud constants referenced by the source:
-- Provider.GOOGLE_STORAGE = "google_storage", Provider.S3 = "s3",
-- Provider.LOCAL = "local".
def googleProvider : Str := "google_storage".toList

def s3Provider : Str := "s3".toList

def localProvider : Str := "local".toList

inductive StorageBackend where
  | google
  | s3
  | local
deriving DecidableEq, Repr

inductive SetupError where
  | unsupportedProvider
deriving DecidableEq, Repr

/-- `Storage._connect_storage`: resolve the configured provider string to a
concrete driver (equality for google/local, `startswith` for the s3 family,
in source order); anything else raises immediately (`NotImplementedError`,
the spec's `UnsupportedProviderError`). -/

def connectStorage (provider : Str) : Except SetupError StorageBackend :=
  if provider == googleProvider then .ok .google
  else if s3Provider.isPrefixOf provider then .ok .s3
  else if provider == localProvider then .ok .local
  else .error .unsupportedProvider

/-- `Storage.__init__` calls `_connect_storage()` exactly once: there is no
retry decorator around engine construction.  `mk n` abstracts the n-th
attempted construction of the concrete driver (client construction may fail
transiently); the constructor performs attempt 0 only. -/

def storageInit {β : Type} (mk : Nat → Except Unit β) : Except Unit β := mk 0

/-- The `retrying` decorator on `get_node_backup`
(`stop_max_attempt_number=7`): run attempts until one succeeds or the budget
is exhausted, the last failure surfacing. -/

def retryFrom {β : Type} (f : Nat → Except Unit β) : Nat → Nat → Except Unit β
  | _, 0 => .error ()
  | i, n + 1 =>
    match f i with
    | .ok b => .ok b
    | .error e => if n = 0 then .error e else retryFrom f (i + 1) n

/-- `get_node_backup` under its retry decorator, with the construction of the
`NodeBackup` (an external storage call) abstracted as an attempt-indexed
oracle. -/

def getNodeBackupRetried {β : Type} (mk : Nat → Except Unit β) : Except Unit β :=
  retryFrom mk 0 7

/-- `wait_exponential_multiplier=10000, wait_exponential_max=120000`: the
wait before retry number n is the exponential backoff capped at 120000 ms. -/

def retryWaitMs (n : Nat) : Nat := min (10000 * 2 ^ n) 120000

/-- C9 counterexample: engine construction does not retry.  A driver
construction that fails transiently on the first attempt and succeeds on the
second makes `Storage.__init__` fail outright, whereas the retry policy the
claim ascribes to construction (7 attempts) would succeed. -/

def nbKeyLe (a b : NodeBackupRec) : Prop :=
  a.name < b.name ∨ (a.name = b.name ∧ a.startedTs.getD 0 ≤ b.startedTs.getD 0)

instance : DecidableRel nbKeyLe := fun a b =>
  inferInstanceAs (Decidable (a.name < b.name ∨
    (a.name = b.name ∧ a.startedTs.getD 0 ≤ b.startedTs.getD 0)))

instance : IsTotal NodeBackupRec nbKeyLe :=
  ⟨fun a b => by
    rcases lt_trichotomy a.name b.name with h | h | h
    · exact Or.inl (Or.inl h)
    · rcases le_total (a.startedTs.getD 0) (b.startedTs.getD 0) with hs | hs
      · exact Or.inl (Or.inr ⟨h, hs⟩)
      · exact Or.inr (Or.inr ⟨h.symm, hs⟩)
    · exact Or.inr (Or.inl h)⟩

instance : IsTrans NodeBackupRec nbKeyLe :=
  ⟨fun a b c hab hbc => by
    rcases hab with h1 | ⟨h1, h1'⟩ <;> rcases hbc with h2 | ⟨h2, h2'⟩
    · exact Or.inl (lt_trans h1 h2)
    · exact Or.inl (h2 ▸ h1)
    · exact Or.inl (h1 ▸ h2)
    · exact Or.inr ⟨h1.trans h2, le_trans h1' h2'⟩⟩

/-- `ClusterBackup(name, node_backups)` as constructed on source line 308. -/
structure ClusterBackupRec where
  name : Str
  members : List NodeBackupRec
deriving DecidableEq, Repr

/-- `Storage.list_cluster_backups`: sort the node backups by
`(backup_name, started)`, group consecutively by backup name, and yield one
ClusterBackup per group. -/

def listClusterBackups (nbs : List NodeBackupRec) : List ClusterBackupRec :=
  (groupRunsBy (fun nb => nb.name) (nbs.insertionSort nbKeyLe)).map
    (fun g => { name := g.1, members := g.2 })

/-- Modelled from the spec: `ClusterBackup.started` (cluster_backup.py is not
under src/) is "the earliest NodeBackup start among members". -/

def cbStarted (cb : ClusterBackupRec) : Nat :=
  match cb.members with
  | [] => 0
  | x :: xs => xs.foldl (fun a y => min a (y.startedTs.getD 0)) (x.startedTs.getD 0)

/-- Python `max(iterable, key=k, default=None)`: a left fold that keeps the
first element whose key is maximal (it replaces the best only on a strictly
greater key). -/

def pyMaxBy {α : Type} (key : α → Nat) : List α → Option α
  | [] => none
  | x :: xs => some (xs.foldl (fun acc y => if key y > key acc then y else acc) x)

/-- `Storage.latest_cluster_backup`:
`max(list_cluster_backups, key=started, default=None)`. -/

def latestClusterBackup (nbs : List NodeBackupRec) : Option ClusterBackupRec :=
  pyMaxBy cbStarted (listClusterBackups nbs)

def nbA : NodeBackupRec :=
  { fqdn := "n1".toList, name := "a".toList, manifestBlob := none,
    schemaBlob := none, tokenmapBlob := none, startedBlob := none,
    finishedBlob := none, startedTs := some 5, finishedTs := none,
    differentialBlob := none }

def nbB : NodeBackupRec :=
  { nbA with fqdn := "n2".toList, name := "b".toList }

/-- Witness for C6: two node backups with distinct names group into two
singleton cluster backups in name order. -/

def digitChar (d : Nat) : Char :=
  match d with
  | 0 => '0' | 1 => '1' | 2 => '2' | 3 => '3' | 4 => '4'
  | 5 => '5' | 6 => '6' | 7 => '7' | 8 => '8' | _ => '9'

/-- `str(ts)`: the decimal rendering Python writes into a timestamped key. -/
def natDigits (n : Nat) : Str :=
  if n = 0 then ['0'] else ((Nat.digits 10 n).map digitChar).reverse

def idxPrefix : Str := "index/backup_index/".toList

/-- A generic index key of the persisted layout:
`index/backup_index/<backup_name>/<kind>_<node_id><ext>`. -/

def encodeGenKey (bn kind nid ext : Str) : Str :=
  idxPrefix ++ bn ++ '/' :: (kind ++ '_' :: (nid ++ ext))

/-- A timestamped index key of the persisted layout:
`index/backup_index/<backup_name>/<kind>_<node_id>_<unix_ts>.timestamp`. -/

def encodeTsKey (bn kind nid : Str) (ts : Nat) : Str :=
  idxPrefix ++ bn ++ '/' :: (kind ++ '_' :: (nid ++ '_' :: (natDigits ts ++ timestampExt)))

/-- The decorative extensions of the persisted layout. -/
def extOptions : List Str := [[], jsonExt, cqlExt, txtExt]

theorem removeAllFuel_fuel_irrel (pat : Str) :
    ∀ f₁ f₂ s, s.length ≤ f₁ → s.length ≤ f₂ →
      removeAllFuel pat f₁ s = removeAllFuel pat f₂ s := by
  intro f₁
  induction f₁ with
  | zero =>
    intro f₂ s hs _
    have : s = [] := List.eq_nil_of_length_eq_zero (Nat.le_zero.mp hs)
    subst this
    cases f₂ <;> rfl
  | succ f ih =>
    intro f₂ s hs hs'
    cases s with
    | nil => cases f₂ <;> rfl
    | cons c rest =>
      cases f₂ with
      | zero => exact absurd hs' (by simp)
      | succ g =>
        simp only [removeAllFuel]
        have hrest : rest.length ≤ f := by simpa using hs
        have hrest' : rest.length ≤ g := by simpa using hs'
        by_cases hp : pat.isPrefixOf (c :: rest) = true
        · simp only [hp, if_true]
          exact ih g _ (le_trans (by simp [List.length_drop]) hrest)
            (le_trans (by simp [List.length_drop]) hrest')
        · simp only [Bool.not_eq_true] at hp
          simp only [hp, Bool.false_eq_true, if_false]
          exact congrArg _ (ih g rest hrest hrest')

/-- The defining equation of `removeAll` on a nonempty string. -/
theorem removeAll_cons (pat : Str) (c : Char) (rest : Str) :
    removeAll pat (c :: rest) =
      if pat.isPrefixOf (c :: rest) then removeAll pat (rest.drop (pat.length - 1))
      else c :: removeAll pat rest := by
  show removeAllFuel pat (rest.length + 1) (c :: rest) = _
  simp only [removeAllFuel]
  by_cases hp : pat.isPrefixOf (c :: rest) = true
  · simp only [hp, if_true]
    exact removeAllFuel_fuel_irrel pat _ _ _ (by simp [List.length_drop]) le_rfl
  · simp only [Bool.not_eq_true] at hp
    simp only [hp, Bool.false_eq_true, if_false]
    exact congrArg _ (removeAllFuel_fuel_irrel pat _ _ _ (by simp) le_rfl)

@[simp] theorem removeAll_nil (pat : Str) : removeAll pat [] = [] := rfl

-- Sanity checks against the concrete behaviour of the Python patterns.
example :
    decodeOwnerE "index/backup_index/daily/started_nodeA_1700000000.timestamp".toList
      = .ok "nodeA".toList := by rfl

example :
    decodeOwnerE "index/backup_index/daily/tokenmap_nodeA.json".toList
      = .ok "nodeA".toList := by rfl

example : tsMatch "finished_x_123timestamp".toList
    = some ("finished".toList, "x".toList, "12".toList) := by rfl

example : tsMatch "started_xstarted_y_77.timestamp".toList
    = some ("started".toList, "y".toList, "77".toList) := by rfl

example : tsMatch "started_nodeA_.timestamp".toList = none := by rfl

example : genericMatch "xdifferential_incremental_y".toList
    = some ("incremental".toList, "y".toList) := by rfl

example : removeExtension "a.c.jsonql.b".toList = "a.b".toList := by rfl

example : decodeOwnerE "not an index key".toList = .error .malformedKey := by rfl

/-- Outcome of `remove_backup_from_index` (which delegates to the external
collaborator `medusa.index.clean_backup_from_index`): success, the
authorization failure `InvalidCredsError`, or any other exception. -/

theorem walkBackups_flag_set {α : Type} (exq : α → Bool) (rm : α → RemovalResult) :
    ∀ l : List α, walkBackups exq rm l true = (l, [], [], none) := by
  intro l
  induction l with
  | nil => rfl
  | cons nb rest ih => simp [walkBackups, ih]

/-- C1: during a single invocation of `list_node_backups`, for the candidates
walked in started-ascending order: once any candidate is confirmed to exist
by its `exists()` probe, every later candidate is yielded without a further
existence check.  Concretely, walking `l1 ++ nb :: l2` where no candidate of
`l1` exists (and none of their removals aborts the generator) and `nb` is
confirmed to exist: exactly the members of `l1` and `nb` are probed, `nb` and
everything after it is yielded, and no member of `l2` is ever probed. -/

theorem claim_C1_exists_short_circuit {α : Type} (exq : α → Bool)
    (rm : α → RemovalResult) (l1 : List α) (nb : α) (l2 : List α)
    (h1 : ∀ x ∈ l1, exq x = false) (h2 : ∀ x ∈ l1, rm x ≠ .other)
    (h3 : exq nb = true) :
    walkBackups exq rm (l1 ++ nb :: l2) false = (nb :: l2, l1 ++ [nb], l1, none) := by
  induction l1 with
  | nil =>
    simp [walkBackups, h3, walkBackups_flag_set]
  | cons x l1' ih =>
    have hx : exq x = false := h1 x (by simp)
    have hrmx : rm x ≠ .other := h2 x (by simp)
    have ih' := ih (fun z hz => h1 z (by simp [hz])) (fun z hz => h2 z (by simp [hz]))
    cases hrm : rm x with
    | other => exact absurd hrm hrmx
    | ok => simp [walkBackups, hx, hrm, ih']
    | invalidCreds => simp [walkBackups, hx, hrm, ih']

/-- Witness for C1 at a concrete input: candidate 0 does not exist, candidate
1 exists, candidate 2 follows; the walk probes 0 and 1 only, yields 1 and 2,
and removes 0. -/

theorem claim_C1_exists_short_circuit_witness :
    walkBackups (fun n : Nat => n == 1) (fun _ => RemovalResult.ok) [0, 1, 2] false
      = ([1, 2], [0, 1], [0], none) :=
  claim_C1_exists_short_circuit (fun n : Nat => n == 1) (fun _ => RemovalResult.ok)
    [0] 1 [2] (by decide) (by decide) (by decide)

/-- C2: a candidate whose existence probe fails while no earlier candidate
was confirmed is not yielded, and removal from the index is invoked for it;
an authorization failure (`InvalidCredsError`) from that removal is swallowed
so the walk continues with the remaining candidates, while any other removal
failure propagates and aborts the generator. -/

theorem claim_C2_self_healing {α : Type} (exq : α → Bool) (rm : α → RemovalResult)
    (nb : α) (rest y c r : List α) (e : Option ListingError)
    (hex : exq nb = false)
    (hrest : walkBackups exq rm rest false = (y, c, r, e)) :
    (rm nb = .ok ∨ rm nb = .invalidCreds →
       walkBackups exq rm (nb :: rest) false = (y, nb :: c, nb :: r, e))
    ∧ (rm nb = .other →
       walkBackups exq rm (nb :: rest) false = ([], [nb], [nb], some .removalFailure)) := by
  constructor
  · intro hrm
    rcases hrm with hrm | hrm <;> simp [walkBackups, hex, hrm, hrest]
  · intro hrm
    simp [walkBackups, hex, hrm]

/-- Witness for C2 at a concrete input: candidate 0 does not exist and its
removal hits the authorization failure; the walk swallows it, continues, and
yields the later candidate 5. -/

theorem claim_C2_self_healing_witness :
    walkBackups (fun n : Nat => n == 5) (fun _ => RemovalResult.invalidCreds)
      [0, 5] false = ([5], [0, 5], [0], none) :=
  (claim_C2_self_healing (fun n : Nat => n == 5) (fun _ => RemovalResult.invalidCreds)
    0 [5] [5] [5] [] none (by decide) (by decide)).1 (Or.inr rfl)

/-- C4: `get_fqdn_from_any_index_blob` tries the timestamp pattern before the
generic kind pattern, so whenever the timestamp pattern matches the decoded
owner is that pattern's group 2 (never the kind word); in particular the
scenario key decodes to "nodeA", not "started". -/

theorem claim_C4_timestamp_pattern_first :
    (∀ s k g2 g3, tsMatch s = some (k, g2, g3) →
       decodeOwnerE s = .ok (removeExtension g2))
    ∧ decodeOwnerE "index/backup_index/daily/started_nodeA_1700000000.timestamp".toList
        = .ok "nodeA".toList
    ∧ "nodeA".toList ≠ "started".toList := by
  refine ⟨fun s k g2 g3 h => ?_, by rfl, by decide⟩
  simp [decodeOwnerE, h]

/-- Witness for C4's universally quantified part at a concrete timestamped
key. -/

theorem claim_C4_timestamp_pattern_first_witness :
    decodeOwnerE "started_n_7.timestamp".toList = .ok "n".toList := by
  have h := claim_C4_timestamp_pattern_first.1 "started_n_7.timestamp".toList
    "started".toList "n".toList "7".toList (by rfl)
  simpa using h

-- Python compares strings lexicographically by code points; the Mathlib
-- lexicographic order on `List Char` agrees.  Sanity checks:
example : ("a!b".toList : List Char) < "a/b".toList := by decide

example : ("a".toList : List Char) < "ab".toList := by decide

example : ¬ (("b".toList : List Char) < "ab".toList) := by decide

-- Spec scenario sanity check: one fully indexed backup "daily" of node
-- "nodeA" produces one candidate with started=1000 and finished=2000.
example :
    (buildNodeBackups none
        ["index/backup_index/daily/tokenmap_nodeA.json".toList,
         "index/backup_index/daily/schema_nodeA.cql".toList,
         "index/backup_index/daily/manifest_nodeA.json".toList,
         "index/backup_index/daily/started_nodeA_1000.timestamp".toList,
         "index/backup_index/daily/finished_nodeA_2000.timestamp".toList]).map
      (fun l => l.map (fun nb => (nb.fqdn, nb.name, nb.startedTs, nb.finishedTs)))
      = .ok [("nodeA".toList, "daily".toList, some 1000, some 2000)] := by rfl

theorem except_error_bind {ε α β : Type} (e : ε) (f : α → Except ε β) :
    (Except.error e >>= f) = (.error e : Except ε β) := rfl

theorem except_ok_bind {ε α β : Type} (a : α) (f : α → Except ε β) :
    (Except.ok a >>= f) = f a := rfl

/-- The only error the owner decoder can raise is the malformed-key
assertion. -/

theorem decodeOwnerE_error_malformed (s : Str) (e : ListingError)
    (h : decodeOwnerE s = .error e) : e = .malformedKey := by
  unfold decodeOwnerE at h
  cases hts : tsMatch s with
  | some r => rw [hts] at h; obtain ⟨_, _, _⟩ := r; simp at h
  | none =>
    rw [hts] at h
    cases hg : genericMatch s with
    | some r => rw [hg] at h; obtain ⟨_, _⟩ := r; simp at h
    | none => rw [hg] at h; exact (Except.error.inj h).symm

/-- If every index blob name splits deep enough but some blob name matches
neither pattern, computing the sort keys aborts with the malformed-key
failure. -/

theorem keyedMapM_malformed : ∀ blobs : List Str,
    (∀ b ∈ blobs, isOkE (getBackupName b) = true) →
    (∃ b ∈ blobs, decodeOwnerE b = .error .malformedKey) →
    blobs.mapM keyedBlob
      = (.error .malformedKey : Except ListingError (List ((Str × Str) × Str))) := by
  intro blobs
  induction blobs with
  | nil => intro _ h; simp at h
  | cons b rest ih =>
    intro hpath hbad
    rw [List.mapM_cons]
    cases hdec : decodeOwnerE b with
    | error e =>
      have he := decodeOwnerE_error_malformed b e hdec
      subst he
      have hkb : keyedBlob b = .error .malformedKey := by
        have hok := hpath b (by simp)
        unfold keyedBlob nameAndFqdn
        cases hg : getBackupName b with
        | error e2 => rw [hg] at hok; simp [isOkE] at hok
        | ok bn => simp [except_ok_bind, hdec, except_error_bind]
      rw [hkb, except_error_bind]
    | ok f =>
      have hok := hpath b (by simp)
      obtain ⟨bn, hg⟩ : ∃ bn, getBackupName b = .ok bn := by
        cases hg : getBackupName b with
        | error e2 => rw [hg] at hok; simp [isOkE] at hok
        | ok bn => exact ⟨bn, rfl⟩
      have hkb : keyedBlob b = .ok ((bn, f), b) := by
        unfold keyedBlob nameAndFqdn
        rw [hg, except_ok_bind, hdec, except_ok_bind]
        rfl
      rw [hkb, except_ok_bind]
      have hrest : ∃ z ∈ rest, decodeOwnerE z = .error .malformedKey := by
        obtain ⟨z, hz, hze⟩ := hbad
        rcases List.mem_cons.mp hz with h | h
        · subst h; rw [hdec] at hze; exact absurd hze (by simp)
        · exact ⟨z, h, hze⟩
      rw [ih (fun z hz => hpath z (by simp [hz])) hrest, except_error_bind]

/-- C5: a key matching neither pattern makes the owner decoder fail with the
malformed-key assertion, a key without the timestamp suffix makes the
timestamp decoder fail likewise, and such a failure propagates out of
`list_node_backups` (nothing is yielded, the listing aborts) instead of
being swallowed. -/

theorem claim_C5_malformed_key_aborts :
    (∀ s, tsMatch s = none → genericMatch s = none →
       decodeOwnerE s = .error .malformedKey)
    ∧ (∀ s, tsMatch s = none → getTimestampE s = .error .malformedKey)
    ∧ (∀ exq rm fqdnF blobs,
        (∀ b ∈ blobs, isOkE (getBackupName b) = true) →
        (∃ b ∈ blobs, decodeOwnerE b = .error .malformedKey) →
        listNodeBackups exq rm fqdnF blobs = ([], [], [], some .malformedKey)) := by
  refine ⟨fun s hts hg => ?_, fun s hts => ?_, fun exq rm fqdnF blobs hpath hbad => ?_⟩
  · unfold decodeOwnerE
    rw [hts, hg]
  · unfold getTimestampE
    rw [hts]
  · have hgrp : groupBackupIndex blobs = .error .malformedKey := by
      unfold groupBackupIndex
      rw [keyedMapM_malformed blobs hpath hbad, except_error_bind]
    have hbuild : buildNodeBackups fqdnF blobs = .error .malformedKey := by
      unfold buildNodeBackups
      rw [hgrp, except_error_bind]
    unfold listNodeBackups
    rw [hbuild]

/-- Witness for C5: concrete malformed keys, and a one-blob index whose only
entry is malformed aborts the listing with nothing yielded. -/

theorem claim_C5_malformed_key_aborts_witness :
    decodeOwnerE "nonsense".toList = .error .malformedKey
    ∧ getTimestampE "index/backup_index/b1/tokenmap_n.json".toList = .error .malformedKey
    ∧ listNodeBackups (fun _ => true) (fun _ => .ok) none
        ["index/backup_index/b1/garbage".toList] = ([], [], [], some .malformedKey) := by
  refine ⟨claim_C5_malformed_key_aborts.1 _ (by rfl) (by rfl),
    claim_C5_malformed_key_aborts.2.1 _ (by rfl),
    claim_C5_malformed_key_aborts.2.2 (fun _ => true) (fun _ => .ok) none _
      (by decide) ⟨"index/backup_index/b1/garbage".toList, by simp, by rfl⟩⟩

theorem isPrefixOf_self_app : ∀ p t : Str, p.isPrefixOf (p ++ t) = true := by
  intro p
  induction p with
  | nil => intro t; simp [List.isPrefixOf]
  | cons c p ih => intro t; simp [List.isPrefixOf, ih t]

/-- A string containing `pat` contiguously passes the substring test. -/
theorem hasSub_append_self (pat : Str) : ∀ u v : Str, hasSub pat (u ++ pat ++ v) = true := by
  intro u
  induction u with
  | nil =>
    intro v
    cases hq : pat ++ v with
    | nil =>
      have hp : pat = [] := by
        cases pat with
        | nil => rfl
        | cons c p => simp at hq
      have hv : v = [] := by rw [hp] at hq; simpa using hq
      subst hp; subst hv; rfl
    | cons c rest =>
      show hasSub pat (pat ++ v) = true
      rw [hq]
      show (pat.isPrefixOf (c :: rest) || hasSub pat rest) = true
      rw [← hq, isPrefixOf_self_app]
      rfl
  | cons c u ih =>
    intro v
    show (pat.isPrefixOf _ || hasSub pat (u ++ pat ++ v)) = true
    rw [ih v, Bool.or_true]

/-- C7 counterexample: with node filter "node1", the tokenmap entry of the
*different* node "xnode1" is selected as a candidate (its name contains
"node1" as a substring), and `list_node_backups` builds a backup whose owner
is "xnode1", not "node1".  So the candidate set is not "exactly the entries
whose decoded node identifier equals the filter". -/

theorem claim_C7_counterexample :
    getBlobsForFqdn ["index/backup_index/b1/tokenmap_xnode1.json".toList] "node1".toList
      = ["index/backup_index/b1/tokenmap_xnode1.json".toList]
    ∧ decodeOwnerE "index/backup_index/b1/tokenmap_xnode1.json".toList ≠ .ok "node1".toList
    ∧ (buildNodeBackups (some "node1".toList)
        ["index/backup_index/b1/tokenmap_xnode1.json".toList,
         "index/backup_index/b1/started_xnode1_5.timestamp".toList]).map
        (fun l => l.map (fun nb => nb.fqdn))
      = .ok ["xnode1".toList] := by
  exact ⟨by rfl, by decide, by rfl⟩

/-- C7 amended: the candidate set is restricted to exactly those tokenmap
index entries whose full blob name contains the node filter as a substring;
no name containing the filter is dropped (in particular no well-formed entry
of the filtered node, whose name embeds the filter), but entries of other
nodes whose names happen to contain the filter are also kept. -/

theorem claim_C7_amended_substring_filter :
    ∀ (fqdn : Str) (blobs : List Str),
      (∀ b, b ∈ getBlobsForFqdn blobs fqdn ↔ (b ∈ blobs ∧ hasSub fqdn b = true))
      ∧ (∀ u v : Str, hasSub fqdn (u ++ fqdn ++ v) = true) := by
  intro fqdn blobs
  refine ⟨fun b => ?_, fun u v => hasSub_append_self fqdn u v⟩
  unfold getBlobsForFqdn
  simp [List.mem_filter]

theorem groupRunsBy_cons {α β : Type} (key : α → β) [DecidableEq β] (a : α) (l : List α) :
    groupRunsBy key (a :: l) =
      match groupRunsBy key l with
      | (k, run) :: gs' =>
        if key a = k then (k, a :: run) :: gs' else (key a, [a]) :: (k, run) :: gs'
      | [] => [(key a, [a])] := rfl

theorem groupRunsBy_nil_iff {α β : Type} (key : α → β) [DecidableEq β] (l : List α) :
    groupRunsBy key l = [] ↔ l = [] := by
  constructor
  · intro h
    cases l with
    | nil => rfl
    | cons a l =>
      rw [groupRunsBy_cons] at h
      cases hG : groupRunsBy key l with
      | nil => rw [hG] at h; simp at h
      | cons p gs =>
        obtain ⟨k, run⟩ := p
        rw [hG] at h
        by_cases hk : key a = k <;> simp [hk] at h
  · intro h; subst h; rfl

theorem groupRunsBy_join {α β : Type} (key : α → β) [DecidableEq β] :
    ∀ l : List α, ((groupRunsBy key l).map (fun g => g.2)).flatten = l := by
  intro l
  induction l with
  | nil => rfl
  | cons a l ih =>
    rw [groupRunsBy_cons]
    cases hG : groupRunsBy key l with
    | nil =>
      have hl : l = [] := (groupRunsBy_nil_iff key l).mp hG
      subst hl; rfl
    | cons p gs =>
      obtain ⟨k, run⟩ := p
      rw [hG] at ih
      by_cases hk : key a = k
      · simp only [hk, if_true]
        simp only [List.map_cons] at ih ⊢
        rw [List.flatten_cons] at ih ⊢
        rw [List.cons_append, ih]
      · simp only [hk, if_false]
        simp only [List.map_cons] at ih ⊢
        rw [List.flatten_cons] at ih ⊢
        rw [List.flatten_cons, List.singleton_append, ih]

theorem groupRunsBy_key {α β : Type} (key : α → β) [DecidableEq β] :
    ∀ (l : List α) g, g ∈ groupRunsBy key l → ∀ x ∈ g.2, key x = g.1 := by
  intro l
  induction l with
  | nil => intro g hg; simp [groupRunsBy] at hg
  | cons a l ih =>
    intro g hg x hx
    rw [groupRunsBy_cons] at hg
    cases hG : groupRunsBy key l with
    | nil =>
      rw [hG] at hg
      simp at hg
      subst hg
      simp at hx
      subst hx
      rfl
    | cons p gs =>
      obtain ⟨k, run⟩ := p
      rw [hG] at hg
      by_cases hk : key a = k
      · simp only [hk, if_true] at hg
        rcases List.mem_cons.mp hg with hgg | hgg
        · subst hgg
          rcases List.mem_cons.mp hx with hxx | hxx
          · subst hxx; exact hk
          · exact ih (k, run) (by rw [hG]; exact List.mem_cons_self _ _) x hxx
        · exact ih g (by rw [hG]; exact List.mem_cons_of_mem _ hgg) x hx
      · simp only [hk, if_false] at hg
        rcases List.mem_cons.mp hg with hgg | hgg
        · subst hgg
          simp at hx
          subst hx
          rfl
        · exact ih g (by rw [hG]; exact hgg) x hx

theorem groupRunsBy_ne_nil {α β : Type} (key : α → β) [DecidableEq β] :
    ∀ (l : List α) g, g ∈ groupRunsBy key l → g.2 ≠ [] := by
  intro l
  induction l with
  | nil => intro g hg; simp [groupRunsBy] at hg
  | cons a l ih =>
    intro g hg
    rw [groupRunsBy_cons] at hg
    cases hG : groupRunsBy key l with
    | nil => rw [hG] at hg; simp at hg; subst hg; simp
    | cons p gs =>
      obtain ⟨k, run⟩ := p
      rw [hG] at hg
      by_cases hk : key a = k
      · simp only [hk, if_true] at hg
        rcases List.mem_cons.mp hg with hgg | hgg
        · subst hgg; simp
        · exact ih g (by rw [hG]; exact List.mem_cons_of_mem _ hgg)
      · simp only [hk, if_false] at hg
        rcases List.mem_cons.mp hg with hgg | hgg
        · subst hgg; simp
        · exact ih g (by rw [hG]; exact hgg)

theorem groupRunsBy_mem_of_mem {α β : Type} (key : α → β) [DecidableEq β]
    (l : List α) (x : α) (hx : x ∈ l) : ∃ g ∈ groupRunsBy key l, x ∈ g.2 := by
  have hj := groupRunsBy_join key l
  rw [← hj] at hx
  obtain ⟨m, hm, hxm⟩ := List.mem_flatten.mp hx
  obtain ⟨g, hg, rfl⟩ := List.mem_map.mp hm
  exact ⟨g, hg, hxm⟩

theorem groupRunsBy_mem_sub {α β : Type} (key : α → β) [DecidableEq β]
    (l : List α) (g : β × List α) (hg : g ∈ groupRunsBy key l)
    (x : α) (hx : x ∈ g.2) : x ∈ l := by
  have hj := groupRunsBy_join key l
  rw [← hj]
  exact List.mem_flatten.mpr ⟨g.2, List.mem_map.mpr ⟨g, hg, rfl⟩, hx⟩

theorem except_map_ok {ε α β : Type} (f : α → β) (a : α) :
    (Except.ok a : Except ε α).map f = .ok (f a) := rfl

theorem except_map_error {ε α β : Type} (f : α → β) (e : ε) :
    (Except.error e : Except ε α).map f = .error e := rfl

theorem mapM_partsKeyed_ok : ∀ (l : List Str) keyed,
    l.mapM partsKeyed = .ok keyed →
    keyed.map (fun kb => kb.2) = l ∧ ∀ kb ∈ keyed, firstTwoParts kb.2 = some kb.1 := by
  intro l
  induction l with
  | nil =>
    intro keyed h
    simp only [List.mapM_nil] at h
    have : ([] : List ((Str × Str) × Str)) = keyed := Except.ok.inj h
    subst this
    simp
  | cons b rest ih =>
    intro keyed h
    rw [List.mapM_cons] at h
    cases hp : partsKeyed b with
    | error e => rw [hp, except_error_bind] at h; exact absurd h (by simp)
    | ok kb =>
      rw [hp, except_ok_bind] at h
      cases hr : rest.mapM partsKeyed with
      | error e => rw [hr, except_error_bind] at h; exact absurd h (by simp)
      | ok keyed' =>
        rw [hr, except_ok_bind] at h
        have hk : kb :: keyed' = keyed := Except.ok.inj h
        subst hk
        obtain ⟨h1, h2⟩ := ih keyed' hr
        have hkb2 : kb.2 = b ∧ firstTwoParts b = some kb.1 := by
          unfold partsKeyed at hp
          cases hf : firstTwoParts b with
          | some k =>
            rw [hf] at hp
            have hh := Except.ok.inj hp
            have h2b : kb.2 = b := by rw [← hh]
            have h1b : some k = some kb.1 := by rw [← hh]
            exact ⟨h2b, hf ▸ h1b⟩
          | none => rw [hf] at hp; exact absurd hp (by simp)
        constructor
        · simp only [List.map_cons, h1, hkb2.1]
        · intro kb' hkb'
          rcases List.mem_cons.mp hkb' with hh | hh
          · subst hh; rw [hkb2.1]; exact hkb2.2
          · exact h2 kb' hh

/-- C8 counterexample: the blob named exactly as the claim's persisted layout
says (`node1/b1/meta/schema`) is considered (its key contains "meta") and is,
per the claim, the schema blob of group (node1, b1) - yet `discover` yields
nothing for it, because the code's criterion is `endswith('/schema.cql')`.
With `node1/b1/meta/schema.cql` instead, the group is yielded. -/

theorem claim_C8_counterexample :
    discoverNodeBackups ["node1/b1/meta/schema".toList] = .ok []
    ∧ hasSub metaWord "node1/b1/meta/schema".toList = true
    ∧ firstTwoParts "node1/b1/meta/schema".toList = some ("node1".toList, "b1".toList)
    ∧ discoverNodeBackups ["node1/b1/meta/schema.cql".toList]
        = .ok [("node1".toList, "b1".toList, ["node1/b1/meta/schema.cql".toList])] :=
  ⟨rfl, rfl, rfl, rfl⟩

/-- C8 amended: `discover_node_backups` considers exactly the blobs whose key
contains "meta", groups them by the first two path segments (node id, backup
name), and yields a group if and only if it contains a blob whose key ends in
"/schema.cql" (the schema blob `<node_id>/<backup_name>/meta/schema.cql`),
not a blob keyed `<node_id>/<backup_name>/meta/schema`. -/

theorem claim_C8_amended_discover :
    ∀ (blobs : List Str) out, discoverNodeBackups blobs = .ok out →
      (∀ t ∈ out, (∃ b ∈ t.2.2, isSchemaBlob b = true)
         ∧ ∀ b ∈ t.2.2, firstTwoParts b = some (t.1, t.2.1)
              ∧ hasSub metaWord b = true ∧ b ∈ blobs)
      ∧ (∀ b ∈ blobs, hasSub metaWord b = true → isSchemaBlob b = true →
           ∃ t ∈ out, b ∈ t.2.2) := by
  intro blobs out h
  unfold discoverNodeBackups at h
  cases hk : ((blobs.filter (fun b => hasSub metaWord b)).insertionSort
      (fun a b => a ≤ b)).mapM partsKeyed with
  | error e => rw [hk, except_map_error] at h; exact absurd h (by simp)
  | ok keyed =>
    rw [hk, except_map_ok] at h
    have hout := (Except.ok.inj h).symm
    obtain ⟨hsnd, hparts⟩ := mapM_partsKeyed_ok _ keyed hk
    have hmem : ∀ b : Str, b ∈ ((blobs.filter (fun z => hasSub metaWord z)).insertionSort
        (fun a c => a ≤ c)) ↔ (b ∈ blobs ∧ hasSub metaWord b = true) := by
      intro b
      rw [List.Perm.mem_iff (List.perm_insertionSort _ _), List.mem_filter]
    constructor
    · intro t ht
      rw [hout] at ht
      obtain ⟨g, hgmem, rfl⟩ := List.mem_map.mp ht
      rw [List.mem_filter] at hgmem
      obtain ⟨hgg, hany⟩ := hgmem
      constructor
      · obtain ⟨kb, hkb, hs⟩ := List.any_eq_true.mp hany
        exact ⟨kb.2, List.mem_map.mpr ⟨kb, hkb, rfl⟩, hs⟩
      · intro b hb
        obtain ⟨kb, hkb, rfl⟩ := List.mem_map.mp hb
        have hkey := groupRunsBy_key (fun kb => kb.1) keyed g hgg kb hkb
        have hsub := groupRunsBy_mem_sub (fun kb => kb.1) keyed g hgg kb hkb
        have hin : kb.2 ∈ ((blobs.filter (fun z => hasSub metaWord z)).insertionSort
            (fun a c => a ≤ c)) := by
          rw [← hsnd]; exact List.mem_map.mpr ⟨kb, hsub, rfl⟩
        have hbb := (hmem kb.2).mp hin
        refine ⟨?_, hbb.2, hbb.1⟩
        have hkey' : kb.1 = g.1 := hkey
        rw [hparts kb hsub, hkey']
    · intro b hb hmetab hschema
      have hin : b ∈ ((blobs.filter (fun z => hasSub metaWord z)).insertionSort
          (fun a c => a ≤ c)) := (hmem b).mpr ⟨hb, hmetab⟩
      rw [← hsnd] at hin
      obtain ⟨kb, hkbmem, hkb2⟩ := List.mem_map.mp hin
      obtain ⟨g, hg, hkbg⟩ := groupRunsBy_mem_of_mem (fun kb => kb.1) keyed kb hkbmem
      have hfilt : g ∈ (groupRunsBy (fun kb => kb.1) keyed).filter
          (fun g => g.2.any (fun kb => isSchemaBlob kb.2)) := by
        rw [List.mem_filter]
        refine ⟨hg, List.any_eq_true.mpr ⟨kb, hkbg, ?_⟩⟩
        rw [hkb2]; exact hschema
      refine ⟨(g.1.1, g.1.2, g.2.map (fun kb => kb.2)), ?_, ?_⟩
      · rw [hout]; exact List.mem_map.mpr ⟨g, hfilt, rfl⟩
      · exact List.mem_map.mpr ⟨kb, hkbg, hkb2⟩

/-- Witness for C8's amended characterization at a concrete input. -/
theorem claim_C8_amended_discover_witness :
    ∃ t ∈ [("node1".toList, "b1".toList, ["node1/b1/meta/schema.cql".toList])],
      "node1/b1/meta/schema.cql".toList ∈ t.2.2 :=
  (claim_C8_amended_discover ["node1/b1/meta/schema.cql".toList]
      [("node1".toList, "b1".toList, ["node1/b1/meta/schema.cql".toList])]
      (by rfl)).2
    "node1/b1/meta/schema.cql".toList (by simp) (by rfl) (by rfl)

theorem claim_C9_counterexample :
    storageInit (fun n => if n = 0 then .error () else .ok StorageBackend.google)
      = .error ()
    ∧ retryFrom (fun n => if n = 0 then .error () else .ok StorageBackend.google) 0 7
      = .ok StorageBackend.google
    ∧ connectStorage "google_storage".toList = .ok StorageBackend.google :=
  ⟨rfl, rfl, rfl⟩

theorem retryFrom_ok {β : Type} (f : Nat → Except Unit β) :
    ∀ n i b, retryFrom f i n = .ok b →
      ∃ j, i ≤ j ∧ j < i + n ∧ f j = .ok b ∧ ∀ m, i ≤ m → m < j → f m = .error () := by
  intro n
  induction n with
  | zero => intro i b h; exact absurd h (by simp [retryFrom])
  | succ n ih =>
    intro i b h
    unfold retryFrom at h
    cases hf : f i with
    | ok b' =>
      rw [hf] at h
      have : b' = b := Except.ok.inj h
      subst this
      exact ⟨i, le_rfl, by omega, hf, fun m h1 h2 => absurd (lt_of_le_of_lt h1 h2) (lt_irrefl i)⟩
    | error e =>
      rw [hf] at h
      have h2 : (if n = 0 then Except.error e else retryFrom f (i + 1) n)
          = Except.ok b := h
      rcases Nat.eq_zero_or_pos n with hn | hn
      · subst hn; simp at h2
      · rw [if_neg (Nat.pos_iff_ne_zero.mp hn)] at h2
        obtain ⟨j, hj1, hj2, hj3, hj4⟩ := ih (i + 1) b h2
        refine ⟨j, by omega, by omega, hj3, fun m h1 h2 => ?_⟩
        rcases Nat.eq_or_lt_of_le h1 with hm | hm
        · subst hm; cases e; exact hf
        · exact hj4 m (by omega) h2

theorem retryFrom_exhaust {β : Type} (f : Nat → Except Unit β)
    (hall : ∀ n, f n = .error ()) : ∀ n i, retryFrom f i n = .error () := by
  intro n
  induction n with
  | zero => intro i; rfl
  | succ n ih =>
    intro i
    unfold retryFrom
    rw [hall i]
    show (if n = 0 then Except.error () else retryFrom f (i + 1) n) = Except.error ()
    rcases Nat.eq_zero_or_pos n with hn | hn
    · subst hn; simp
    · rw [if_neg (Nat.pos_iff_ne_zero.mp hn)]; exact ih (i + 1)

/-- C9 amended: constructing the engine resolves the provider identifier
(equality for google and local, prefix for the s3 family) and fails fast with
the unsupported-provider error for anything else, with no retry around
construction (`__init__` performs exactly the first construction attempt);
the capped exponential retry policy (7 attempts, waits capped at 120000 ms)
decorates `get_node_backup` instead: it succeeds exactly on the first
successful attempt among the first 7, surfaces the failure when all attempts
fail, and every back-off wait is at most 120000 ms. -/

theorem claim_C9_amended_retry_on_get_node_backup :
    (∀ p, connectStorage p = .error .unsupportedProvider ↔
       (p ≠ googleProvider ∧ s3Provider.isPrefixOf p = false ∧ p ≠ localProvider))
    ∧ (∀ (β : Type) (mk : Nat → Except Unit β), storageInit mk = mk 0)
    ∧ (∀ (β : Type) (mk : Nat → Except Unit β) (b : β),
        getNodeBackupRetried mk = .ok b →
          ∃ j < 7, mk j = .ok b ∧ ∀ m < j, mk m = .error ())
    ∧ (∀ (β : Type) (mk : Nat → Except Unit β),
        (∀ n, mk n = .error ()) → getNodeBackupRetried mk = .error ())
    ∧ (∀ n, retryWaitMs n ≤ 120000) := by
  refine ⟨fun p => ?_, fun β mk => rfl, fun β mk b h => ?_, fun β mk hall => ?_,
    fun n => min_le_right _ _⟩
  · unfold connectStorage
    cases h1 : p == googleProvider <;> cases h2 : s3Provider.isPrefixOf p <;>
      cases h3 : p == localProvider <;>
      simp_all [beq_iff_eq]
  · obtain ⟨j, hj1, hj2, hj3, hj4⟩ := retryFrom_ok mk 7 0 b h
    exact ⟨j, by omega, hj3, fun m hm => hj4 m (Nat.zero_le m) hm⟩
  · exact retryFrom_exhaust mk hall 7 0

/-- Witness for C9's amended claim: a construction succeeding on attempt 2
makes `get_node_backup` succeed with attempts 0 and 1 having failed, and an
unrecognized provider resolves to the unsupported-provider failure. -/

theorem claim_C9_amended_retry_on_get_node_backup_witness :
    (∃ j < 7, (fun n => if n = 2 then (.ok StorageBackend.s3 : Except Unit _)
        else .error ()) j = .ok StorageBackend.s3
      ∧ ∀ m < j, (fun n => if n = 2 then (.ok StorageBackend.s3 : Except Unit _)
        else .error ()) m = .error ())
    ∧ connectStorage "ftp".toList = .error .unsupportedProvider := by
  constructor
  · exact claim_C9_amended_retry_on_get_node_backup.2.2.1 _
      (fun n => if n = 2 then .ok StorageBackend.s3 else .error ())
      StorageBackend.s3 (by rfl)
  · exact (claim_C9_amended_retry_on_get_node_backup.1 "ftp".toList).mpr (by decide)

/-- The sort key of `list_cluster_backups`: the Python tuple
`(b.name, b.started)` compared lexicographically.  Every node backup produced
by `list_node_backups` has a known start time, so `getD 0` on the model's
optional timestamp agrees with Python's int comparison. -/

theorem nbKeyLe_name {a b : NodeBackupRec} (h : nbKeyLe a b) : a.name ≤ b.name := by
  rcases h with h | ⟨h, _⟩
  · exact le_of_lt h
  · exact le_of_eq h

theorem groupRunsBy_chain_ne {α β : Type} (key : α → β) [DecidableEq β] :
    ∀ l : List α, List.Chain' (fun g h => g.1 ≠ h.1) (groupRunsBy key l) := by
  intro l
  induction l with
  | nil => exact List.chain'_nil
  | cons a l ih =>
    rw [groupRunsBy_cons]
    cases hG : groupRunsBy key l with
    | nil => exact List.chain'_singleton _
    | cons p gs =>
      obtain ⟨k, run⟩ := p
      rw [hG] at ih
      by_cases hk : key a = k
      · simp only [hk, if_true]
        cases gs with
        | nil => exact List.chain'_singleton _
        | cons q gs' =>
          rw [List.chain'_cons] at ih ⊢
          exact ⟨ih.1, ih.2⟩
      · simp only [hk, if_false]
        rw [List.chain'_cons]
        exact ⟨hk, ih⟩

theorem pairwise_groups_of_pairwise {α β : Type} (key : α → β) [DecidableEq β]
    (le : α → α → Prop) (l : List α) (h : l.Pairwise le) :
    (groupRunsBy key l).Pairwise (fun g h' => ∀ y ∈ g.2, ∀ z ∈ h'.2, le y z) := by
  have hj := groupRunsBy_join key l
  rw [← hj] at h
  exact List.pairwise_map.mp (List.pairwise_flatten.mp h).2

theorem chain'_combine {γ : Type} (R S T : γ → γ → Prop) (l : List γ)
    (hmem : ∀ x ∈ l, ∀ y ∈ l, R x y → S x y → T x y) :
    List.Chain' R l → List.Chain' S l → List.Chain' T l := by
  induction l with
  | nil => intro _ _; exact List.chain'_nil
  | cons x l ih =>
    cases l with
    | nil => intro _ _; exact List.chain'_singleton _
    | cons y l' =>
      intro hR hS
      rw [List.chain'_cons] at hR hS ⊢
      refine ⟨hmem x (by simp) y (by simp) hR.1 hS.1,
        ih (fun u hu v hv => hmem u (by simp [hu]) v (by simp [hv])) hR.2 hS.2⟩

theorem pairwise_of_chain'_trans {γ : Type} (T : γ → γ → Prop)
    (htrans : ∀ a b c, T a b → T b c → T a c) :
    ∀ l, List.Chain' T l → List.Pairwise T l := by
  intro l
  induction l with
  | nil => intro _; exact List.Pairwise.nil
  | cons x l ih =>
    intro h
    rw [List.pairwise_cons]
    cases l with
    | nil => exact ⟨by simp, List.Pairwise.nil⟩
    | cons y l' =>
      rw [List.chain'_cons] at h
      have hp := ih h.2
      refine ⟨?_, hp⟩
      intro z hz
      rcases List.mem_cons.mp hz with hzz | hzz
      · subst hzz; exact h.1
      · exact htrans x y z h.1 ((List.pairwise_cons.mp hp).1 z hzz)

/-- The yielded cluster backups carry strictly increasing backup names. -/
theorem listClusterBackups_names_lt (nbs : List NodeBackupRec) :
    (listClusterBackups nbs).Pairwise (fun g h => g.name < h.name) := by
  unfold listClusterBackups
  rw [List.pairwise_map]
  have hsorted : (nbs.insertionSort nbKeyLe).Pairwise nbKeyLe :=
    List.sorted_insertionSort nbKeyLe nbs
  have hP := pairwise_groups_of_pairwise (fun nb => nb.name) nbKeyLe _ hsorted
  have hC := groupRunsBy_chain_ne (fun nb => nb.name) (nbs.insertionSort nbKeyLe)
  have hCS := List.Pairwise.chain' hP
  have hT := chain'_combine _ _ (fun (g h : Str × List NodeBackupRec) => g.1 < h.1) _ ?_ hC hCS
  · exact pairwise_of_chain'_trans
      (fun (g h : Str × List NodeBackupRec) => g.1 < h.1)
      (fun a b c hab hbc => lt_trans hab hbc) _ hT
  · intro g hg h hh hne hle
    obtain ⟨y, hy⟩ : ∃ y, y ∈ g.2 := by
      cases hgne : g.2 with
      | nil => exact absurd hgne (groupRunsBy_ne_nil _ _ g hg)
      | cons y ys => exact ⟨y, by simp⟩
    obtain ⟨z, hz⟩ : ∃ z, z ∈ h.2 := by
      cases hhne : h.2 with
      | nil => exact absurd hhne (groupRunsBy_ne_nil _ _ h hh)
      | cons z zs => exact ⟨z, by simp⟩
    have hyk : y.name = g.1 := groupRunsBy_key _ _ g hg y hy
    have hzk : z.name = h.1 := groupRunsBy_key _ _ h hh z hz
    have := nbKeyLe_name (hle y hy z hz)
    rw [hyk, hzk] at this
    exact lt_of_le_of_ne this hne

theorem pyFold_first_max {α : Type} (key : α → Nat) :
    ∀ (xs : List α) (acc : α),
      (xs.foldl (fun a y => if key y > key a then y else a) acc = acc
         ∧ ∀ y ∈ xs, key y ≤ key acc)
      ∨ (∃ pre m post, xs = pre ++ m :: post
           ∧ xs.foldl (fun a y => if key y > key a then y else a) acc = m
           ∧ key acc < key m ∧ (∀ y ∈ pre, key y < key m)
           ∧ (∀ y ∈ post, key y ≤ key m)) := by
  intro xs
  induction xs with
  | nil => intro acc; exact Or.inl ⟨rfl, by simp⟩
  | cons x xs ih =>
    intro acc
    by_cases hx : key x > key acc
    · rcases ih x with ⟨hres, hall⟩ | ⟨pre, m, post, hdec, hres, hacc, hpre, hpost⟩
      · refine Or.inr ⟨[], x, xs, by simp, ?_, hx, by simp, hall⟩
        simp only [List.foldl_cons, if_pos hx]
        exact hres
      · refine Or.inr ⟨x :: pre, m, post, by simp [hdec], ?_, lt_trans hx hacc, ?_, hpost⟩
        · simp only [List.foldl_cons, if_pos hx]
          exact hres
        · intro y hy
          rcases List.mem_cons.mp hy with hyy | hyy
          · subst hyy; exact hacc
          · exact hpre y hyy
    · push_neg at hx
      rcases ih acc with ⟨hres, hall⟩ | ⟨pre, m, post, hdec, hres, hacc, hpre, hpost⟩
      · refine Or.inl ⟨?_, ?_⟩
        · simp only [List.foldl_cons, if_neg (by omega : ¬ key x > key acc)]
          exact hres
        · intro y hy
          rcases List.mem_cons.mp hy with hyy | hyy
          · subst hyy; exact hx
          · exact hall y hyy
      · refine Or.inr ⟨x :: pre, m, post, by simp [hdec], ?_, hacc, ?_, hpost⟩
        · simp only [List.foldl_cons, if_neg (by omega : ¬ key x > key acc)]
          exact hres
        · intro y hy
          rcases List.mem_cons.mp hy with hyy | hyy
          · subst hyy; exact lt_of_le_of_lt hx hacc
          · exact hpre y hyy

/-- Python `max(key=...)` returns the first element achieving the maximal
key: everything before it is strictly smaller, everything after at most
equal. -/

theorem pyMaxBy_first_max {α : Type} (key : α → Nat) (l : List α) (x : α)
    (h : pyMaxBy key l = some x) :
    ∃ pre post, l = pre ++ x :: post
      ∧ (∀ y ∈ pre, key y < key x) ∧ (∀ y ∈ post, key y ≤ key x)
      ∧ (∀ y ∈ l, key y ≤ key x) := by
  cases l with
  | nil => exact absurd h (by simp [pyMaxBy])
  | cons a xs =>
    have hx : xs.foldl (fun acc y => if key y > key acc then y else acc) a = x :=
      Option.some.inj h
    rcases pyFold_first_max key xs a with ⟨hres, hall⟩ | ⟨pre, m, post, hdec, hres, hacc, hpre, hpost⟩
    · rw [hres] at hx
      subst hx
      refine ⟨[], xs, by simp, by simp, hall, ?_⟩
      intro y hy
      rcases List.mem_cons.mp hy with hyy | hyy
      · subst hyy; exact le_rfl
      · exact hall y hyy
    · rw [hres] at hx
      subst hx
      refine ⟨a :: pre, post, by simp [hdec], ?_, hpost, ?_⟩
      · intro y hy
        rcases List.mem_cons.mp hy with hyy | hyy
        · subst hyy; exact hacc
        · exact hpre y hyy
      · intro y hy
        rw [hdec] at hy
        rcases List.mem_cons.mp hy with hyy | hyy
        · subst hyy; exact le_of_lt hacc
        · rcases List.mem_append.mp hyy with hyy' | hyy'
          · exact le_of_lt (hpre y hyy')
          · rcases List.mem_cons.mp hyy' with hyy'' | hyy''
            · subst hyy''; exact le_rfl
            · exact hpost y hyy''

/-- C6: for every input list of node backups (each with a known start time,
as `list_node_backups` guarantees), `list_cluster_backups` yields groups
whose members all share the group's backup name, processes the node backups
in non-decreasing `(backup_name, started)` order (their concatenation is the
sorted permutation of the input), and yields exactly one ClusterBackup per
distinct backup name (pairwise distinct names). -/

theorem claim_C6_cluster_grouping (nbs : List NodeBackupRec)
    (_hsome : ∀ nb ∈ nbs, nb.startedTs.isSome = true) :
    (∀ cb ∈ listClusterBackups nbs, ∀ nb ∈ cb.members, nb.name = cb.name)
    ∧ ((listClusterBackups nbs).map (fun cb => cb.members)).flatten.Pairwise nbKeyLe
    ∧ ((listClusterBackups nbs).map (fun cb => cb.members)).flatten.Perm nbs
    ∧ (listClusterBackups nbs).Pairwise (fun g h => g.name ≠ h.name) := by
  have hmapeq : (listClusterBackups nbs).map (fun cb => cb.members) =
      (groupRunsBy (fun nb => nb.name) (nbs.insertionSort nbKeyLe)).map (fun g => g.2) := by
    unfold listClusterBackups
    rw [List.map_map]
    rfl
  have hflat : ((listClusterBackups nbs).map (fun cb => cb.members)).flatten =
      nbs.insertionSort nbKeyLe := by
    rw [hmapeq, groupRunsBy_join]
  refine ⟨?_, ?_, ?_, ?_⟩
  · intro cb hcb nb hnb
    unfold listClusterBackups at hcb
    obtain ⟨g, hg, rfl⟩ := List.mem_map.mp hcb
    exact groupRunsBy_key _ _ g hg nb hnb
  · rw [hflat]
    exact List.sorted_insertionSort nbKeyLe nbs
  · rw [hflat]
    exact List.perm_insertionSort nbKeyLe nbs
  · exact (listClusterBackups_names_lt nbs).imp (fun h => ne_of_lt h)

/-- C10: `latest_cluster_backup` is deterministic including under ties: it
returns absent iff no cluster backup is listed, and otherwise the *first*
cluster backup of the `(backup_name, started)`-sorted output achieving the
maximal `started` - everything before it is strictly smaller, everything
after at most equal, and among the tied ones it carries the smallest backup
name. -/

theorem claim_C10_latest_tie_break (nbs : List NodeBackupRec) :
    (listClusterBackups nbs = [] → latestClusterBackup nbs = none)
    ∧ (∀ cb, latestClusterBackup nbs = some cb →
        ∃ pre post, listClusterBackups nbs = pre ++ cb :: post
          ∧ (∀ g ∈ pre, cbStarted g < cbStarted cb)
          ∧ (∀ g ∈ post, cbStarted g ≤ cbStarted cb)
          ∧ (∀ g ∈ listClusterBackups nbs, cbStarted g ≤ cbStarted cb)
          ∧ (∀ g ∈ listClusterBackups nbs,
              cbStarted g = cbStarted cb → cb.name ≤ g.name)) := by
  constructor
  · intro h
    unfold latestClusterBackup
    rw [h]
    rfl
  · intro cb h
    obtain ⟨pre, post, hdec, hpre, hpost, hall⟩ :=
      pyMaxBy_first_max cbStarted (listClusterBackups nbs) cb h
    refine ⟨pre, post, hdec, hpre, hpost, hall, ?_⟩
    intro g hg htie
    have hlt := listClusterBackups_names_lt nbs
    rw [hdec] at hlt hg
    rcases List.mem_append.mp hg with hgg | hgg
    · exact absurd htie (by have := hpre g hgg; omega)
    · rcases List.mem_cons.mp hgg with hgg' | hgg'
      · subst hgg'; exact le_rfl
      · have := ((List.pairwise_cons.mp (List.pairwise_append.mp hlt).2.1).1) g hgg'
        exact le_of_lt this

theorem claim_C6_cluster_grouping_witness :
    (∀ cb ∈ listClusterBackups [nbB, nbA], ∀ nb ∈ cb.members, nb.name = cb.name)
    ∧ ((listClusterBackups [nbB, nbA]).map (fun cb => cb.members)).flatten.Pairwise nbKeyLe
    ∧ ((listClusterBackups [nbB, nbA]).map (fun cb => cb.members)).flatten.Perm [nbB, nbA]
    ∧ (listClusterBackups [nbB, nbA]).Pairwise (fun g h => g.name ≠ h.name) :=
  claim_C6_cluster_grouping [nbB, nbA] (by decide)

/-- Witness for C10: with two cluster backups tied on `started = 5`, the one
with the smaller name ("a") is returned, first in the sorted output. -/

theorem claim_C10_latest_tie_break_witness :
    ∃ pre post,
      listClusterBackups [nbB, nbA] = pre ++ (⟨"a".toList, [nbA]⟩ : ClusterBackupRec) :: post
      ∧ (∀ g ∈ pre, cbStarted g < cbStarted (⟨"a".toList, [nbA]⟩ : ClusterBackupRec))
      ∧ (∀ g ∈ post, cbStarted g ≤ cbStarted (⟨"a".toList, [nbA]⟩ : ClusterBackupRec))
      ∧ (∀ g ∈ listClusterBackups [nbB, nbA],
          cbStarted g ≤ cbStarted (⟨"a".toList, [nbA]⟩ : ClusterBackupRec))
      ∧ (∀ g ∈ listClusterBackups [nbB, nbA],
          cbStarted g = cbStarted (⟨"a".toList, [nbA]⟩ : ClusterBackupRec) →
            ("a".toList : Str) ≤ g.name) :=
  (claim_C10_latest_tie_break [nbB, nbA]).2 ⟨"a".toList, [nbA]⟩ (by rfl)

theorem isPre_iff (p : Str) : ∀ w : Str, p.isPrefixOf w = true ↔ ∃ t, w = p ++ t := by
  induction p with
  | nil =>
    intro w
    simp [List.isPrefixOf]
  | cons c p ih =>
    intro w
    cases w with
    | nil => simp [List.isPrefixOf]
    | cons d w' =>
      simp only [List.isPrefixOf, Bool.and_eq_true, beq_iff_eq]
      constructor
      · intro ⟨h1, h2⟩
        obtain ⟨t, rfl⟩ := (ih w').mp h2
        exact ⟨t, by simp [h1]⟩
      · intro ⟨t, ht⟩
        injection ht with h1 h2
        exact ⟨h1.symm, (ih w').mpr ⟨t, h2⟩⟩

theorem mem_of_isPre {p w : Str} (h : p.isPrefixOf w = true) {x : Char}
    (hx : x ∈ p) : x ∈ w := by
  obtain ⟨t, rfl⟩ := (isPre_iff p w).mp h
  exact List.mem_append.mpr (Or.inl hx)

theorem isPre_head_ne (x : Char) (p : Str) (c : Char) (w : Str) (h : x ≠ c) :
    (x :: p).isPrefixOf (c :: w) = false := by
  simp [List.isPrefixOf, h]

/-- A pattern free of `c` matching across `b ++ c :: t` must already match
within `b`. -/

theorem isPre_through (p : Str) (c : Char) (hc : c ∉ p) :
    ∀ b t : Str, p.isPrefixOf (b ++ c :: t) = true → p.isPrefixOf b = true := by
  induction p with
  | nil => intro b t _; simp [List.isPrefixOf]
  | cons x p ih =>
    intro b t h
    cases b with
    | nil =>
      simp only [List.nil_append, List.isPrefixOf, Bool.and_eq_true, beq_iff_eq] at h
      exact absurd (h.1 ▸ List.mem_cons_self x p) hc
    | cons y b' =>
      simp only [List.cons_append, List.isPrefixOf, Bool.and_eq_true, beq_iff_eq] at h ⊢
      exact ⟨h.1, ih (fun hx => hc (List.mem_cons_of_mem x hx)) b' t h.2⟩

/-- If a pattern `K ++ "_"` with underscore only at the end matches at an
underscore-free block `m` followed by `'_'`, then `m` is exactly `K`. -/

theorem pre_underscore_eq (K : Str) (hK : '_' ∉ K) :
    ∀ m rest : Str, '_' ∉ m →
      (K ++ ['_']).isPrefixOf (m ++ '_' :: rest) = true → m = K := by
  induction K with
  | nil =>
    intro m rest hm h
    cases m with
    | nil => rfl
    | cons c m' =>
      simp only [List.nil_append, List.cons_append, List.isPrefixOf, Bool.and_eq_true,
        beq_iff_eq] at h
      exact absurd (h.1 ▸ List.mem_cons_self c m') hm
  | cons k K' ih =>
    intro m rest hm h
    cases m with
    | nil =>
      simp only [List.cons_append, List.nil_append, List.isPrefixOf, Bool.and_eq_true,
        beq_iff_eq] at h
      exact absurd (h.1.symm ▸ List.mem_cons_self k K') hK
    | cons c m' =>
      simp only [List.cons_append, List.isPrefixOf, Bool.and_eq_true, beq_iff_eq] at h
      have := ih (fun hx => hK (List.mem_cons_of_mem k hx)) m' rest
        (fun hx => hm (List.mem_cons_of_mem c hx)) h.2
      rw [this, h.1]

theorem pre_trunc (p a b : Str) (h : p.isPrefixOf (a ++ b) = true)
    (hl : p.length ≤ a.length) : p.isPrefixOf a = true := by
  obtain ⟨t, ht⟩ := (isPre_iff p (a ++ b)).mp h
  have h1 : List.take p.length (a ++ b) = p := by
    rw [ht]
    exact List.take_left' rfl
  rw [List.take_append_eq_append_take, Nat.sub_eq_zero_of_le hl, List.take_zero,
    List.append_nil] at h1
  refine (isPre_iff p a).mpr ⟨a.drop p.length, ?_⟩
  have h2 := List.take_append_drop p.length a
  rw [h1] at h2
  exact h2.symm

theorem pre_split (p a b : Str) (h : p.isPrefixOf (a ++ b) = true)
    (hl : a.length < p.length) :
    p.take a.length = a ∧ (p.drop a.length).isPrefixOf b = true := by
  obtain ⟨t, ht⟩ := (isPre_iff p (a ++ b)).mp h
  have h1 : List.take p.length (a ++ b) = p := by
    rw [ht]
    exact List.take_left' rfl
  constructor
  · have h2 : p.take a.length = List.take a.length (List.take p.length (a ++ b)) := by
      rw [h1]
    rw [h2, List.take_take, min_eq_left (le_of_lt hl)]
    exact List.take_left a b
  · have h2 : p.drop a.length = List.take (p.length - a.length) b := by
      have h3 : p.drop a.length = List.drop a.length (List.take p.length (a ++ b)) := by
        rw [h1]
      rw [h3, List.drop_take, List.drop_left]
    rw [h2]
    exact (isPre_iff _ b).mpr ⟨b.drop (p.length - a.length), (List.take_append_drop _ b).symm⟩

theorem hasSub_of_pre_drop (p : Str) : ∀ (l : Str) (j : Nat),
    p.isPrefixOf (l.drop j) = true → hasSub p l = true := by
  intro l
  induction l with
  | nil =>
    intro j h
    rw [List.drop_eq_nil_of_le (by simp)] at h
    cases p with
    | nil => rfl
    | cons c p' => simp [List.isPrefixOf] at h
  | cons c l' ih =>
    intro j h
    cases j with
    | zero =>
      rw [List.drop_zero] at h
      show (p.isPrefixOf (c :: l') || hasSub p l') = true
      rw [h, Bool.true_or]
    | succ k =>
      rw [List.drop_succ_cons] at h
      show (p.isPrefixOf (c :: l') || hasSub p l') = true
      rw [ih k h, Bool.or_true]

theorem scanBack_skip {γ : Type} (matchAt : Str → Option γ) :
    ∀ (u v : Str) (r : γ), (∀ c ∈ u, c ≠ '\n') → scanBack matchAt v = some r →
      scanBack matchAt (u ++ v) = some r := by
  intro u
  induction u with
  | nil => intro v r _ h; exact h
  | cons c u' ih =>
    intro v r hu h
    show scanBack matchAt (c :: (u' ++ v)) = some r
    unfold scanBack
    rw [if_neg (hu c (by simp)), ih v r (fun z hz => hu z (by simp [hz])) h]

theorem scanBack_none {γ : Type} (matchAt : Str → Option γ) :
    ∀ v : Str, (∀ n, matchAt (v.drop n) = none) → scanBack matchAt v = none := by
  intro v
  induction v with
  | nil => intro _; rfl
  | cons c rest ih =>
    intro h
    have h0 := h 0
    rw [List.drop_zero] at h0
    have hr : ∀ n, matchAt (rest.drop n) = none := fun n => by
      have := h (n + 1)
      rwa [List.drop_succ_cons] at this
    show scanBack matchAt (c :: rest) = none
    unfold scanBack
    by_cases hc : c = '\n'
    · rw [if_pos hc]; exact h0
    · rw [if_neg hc, ih hr]; exact h0

theorem scanBack_exact {γ : Type} (matchAt : Str → Option γ) (v : Str) (r : γ)
    (hne : v ≠ []) (hat : matchAt v = some r)
    (hlater : ∀ n, 0 < n → matchAt (v.drop n) = none) :
    scanBack matchAt v = some r := by
  cases v with
  | nil => exact absurd rfl hne
  | cons c rest =>
    have hrest : scanBack matchAt rest = none :=
      scanBack_none matchAt rest (fun n => by
        have := hlater (n + 1) (by omega)
        rwa [List.drop_succ_cons] at this)
    show scanBack matchAt (c :: rest) = some r
    unfold scanBack
    by_cases hc : c = '\n'
    · rw [if_pos hc]; exact hat
    · rw [if_neg hc, hrest]; exact hat

theorem takeWhile_all {p : Char → Bool} : ∀ l : Str, (∀ c ∈ l, p c = true) →
    l.takeWhile p = l := by
  intro l
  induction l with
  | nil => intro _; rfl
  | cons c rest ih =>
    intro h
    rw [List.takeWhile_cons, if_pos (h c (by simp)), ih (fun z hz => h z (by simp [hz]))]

theorem tsMid_none_no_underscore : ∀ t : Str, '_' ∉ t → tsMid t = none := by
  intro t
  induction t with
  | nil => intro _; rfl
  | cons c rest ih =>
    intro h
    have hc : ¬ c = '_' := by intro hh; exact h (by simp [hh])
    have h' : '_' ∉ rest := fun hx => h (List.mem_cons_of_mem c hx)
    show tsMid (c :: rest) = none
    unfold tsMid
    rw [ih h']
    by_cases hn : c = '\n'
    · rw [if_pos hn]
    · rw [if_neg hn]
      show (if c = '_' then (tsDigits rest).map (fun g3 => (([] : Str), g3)) else none) = none
      rw [if_neg hc]

theorem tsDigits_exact (ds : Str) (hne : ds ≠ []) (hd : ∀ c ∈ ds, c.isDigit = true) :
    tsDigits (ds ++ timestampExt) = some ds := by
  have htw : (ds ++ timestampExt).takeWhile Char.isDigit = ds := by
    rw [List.takeWhile_append, takeWhile_all ds hd, if_pos rfl,
      show List.takeWhile Char.isDigit timestampExt = [] from rfl, List.append_nil]
  unfold tsDigits
  simp only [htw]
  obtain ⟨m, hm⟩ : ∃ m, ds.length = m + 1 := by
    cases hds : ds with
    | nil => exact absurd hds hne
    | cons c rest => exact ⟨rest.length, by simp⟩
  rw [hm, List.range_succ, List.reverse_append]
  simp only [List.reverse_cons, List.reverse_nil, List.nil_append, List.singleton_append]
  rw [List.findSome?_cons]
  have hdrop : (ds ++ timestampExt).drop (m + 1) = timestampExt := by
    rw [← hm, List.drop_left]
  have hts : tsEnd timestampExt = true := rfl
  rw [hdrop, hts, if_pos rfl]
  have htake : (ds ++ timestampExt).take (m + 1) = ds := by
    rw [← hm, List.take_left]
  rw [htake]

theorem tsMid_exact (nid : Str) (ds : Str) (hnidU : '_' ∉ nid) (hnidN : '\n' ∉ nid)
    (hne : ds ≠ []) (hd : ∀ c ∈ ds, c.isDigit = true) :
    tsMid (nid ++ '_' :: (ds ++ timestampExt)) = some (nid, ds) := by
  induction nid with
  | nil =>
    show tsMid ('_' :: (ds ++ timestampExt)) = some ([], ds)
    unfold tsMid
    rw [if_neg (by decide : ¬ ('_' : Char) = '\n')]
    have hnu : '_' ∉ ds ++ timestampExt := by
      intro hx
      rcases List.mem_append.mp hx with hx | hx
      · have := hd '_' hx
        simp [Char.isDigit] at this
      · simp [timestampExt] at hx
    rw [tsMid_none_no_underscore (ds ++ timestampExt) hnu]
    show (if ('_' : Char) = '_' then (tsDigits (ds ++ timestampExt)).map
        (fun g3 => (([] : Str), g3)) else none) = some ([], ds)
    rw [if_pos rfl, tsDigits_exact ds hne hd]
    rfl
  | cons c nid' ih =>
    have hc : ¬ c = '\n' := by intro hh; exact hnidN (by simp [hh])
    show tsMid (c :: (nid' ++ '_' :: (ds ++ timestampExt))) = some (c :: nid', ds)
    unfold tsMid
    rw [if_neg hc,
      ih (fun hx => hnidU (List.mem_cons_of_mem c hx))
        (fun hx => hnidN (List.mem_cons_of_mem c hx))]

theorem tsAlt_self (k mid : Str) :
    tsAlt k (k ++ '_' :: mid) = (tsMid mid).map fun p => (k, p.1, p.2) := by
  unfold tsAlt
  have hpre : (k ++ ['_']).isPrefixOf (k ++ '_' :: mid) = true := by
    have h := isPrefixOf_self_app (k ++ ['_']) mid
    rwa [List.append_assoc, List.singleton_append] at h
  have hdrop : (k ++ '_' :: mid).drop (k.length + 1) = mid := by
    have h1 : k ++ '_' :: mid = (k ++ ['_']) ++ mid := by
      rw [List.append_assoc, List.singleton_append]
    have h2 : (k ++ ['_']).length = k.length + 1 := by simp
    rw [h1, ← h2, List.drop_left]
  rw [if_pos hpre, hdrop]

theorem tsAlt_none_of_pre_false (k s : Str) (h : (k ++ ['_']).isPrefixOf s = false) :
    tsAlt k s = none := by
  unfold tsAlt
  rw [h]
  rfl

theorem tsMatchAt_kind (k : Str)
    (hk : k = "started".toList ∨ k = "finished".toList) (mid : Str) :
    tsMatchAt (k ++ '_' :: mid) = (tsMid mid).map fun p => (k, p.1, p.2) := by
  rcases hk with rfl | rfl
  · unfold tsMatchAt
    rw [tsAlt_self]
    cases h : tsMid mid with
    | some p => rfl
    | none => rfl
  · unfold tsMatchAt
    have h1 : tsAlt "started".toList ("finished".toList ++ '_' :: mid) = none :=
      tsAlt_none_of_pre_false _ _ rfl
    rw [h1, tsAlt_self]

theorem tsMatchAt_head_ne (c : Char) (w : Str) (h1 : c ≠ 's') (h2 : c ≠ 'f') :
    tsMatchAt (c :: w) = none := by
  unfold tsMatchAt
  rw [tsAlt_none_of_pre_false _ _ (isPre_head_ne 's' _ c w (fun hh => h1 hh.symm)),
    tsAlt_none_of_pre_false _ _ (isPre_head_ne 'f' _ c w (fun hh => h2 hh.symm))]

theorem tsMatchAt_no_underscore (w : Str) (h : '_' ∉ w) : tsMatchAt w = none := by
  have hall : ∀ k : Str, (k ++ ['_']).isPrefixOf w = false := by
    intro k
    cases hp : (k ++ ['_']).isPrefixOf w with
    | false => rfl
    | true =>
      exact absurd (mem_of_isPre hp (List.mem_append.mpr (Or.inr (by simp)))) h
  unfold tsMatchAt
  rw [tsAlt_none_of_pre_false _ _ (hall _), tsAlt_none_of_pre_false _ _ (hall _)]

theorem tsAlt_mid_none (k m tail : Str) (hk : '_' ∉ k) (hm : '_' ∉ m)
    (htail : '_' ∉ tail) : tsAlt k (m ++ '_' :: tail) = none := by
  unfold tsAlt
  by_cases hp : (k ++ ['_']).isPrefixOf (m ++ '_' :: tail) = true
  · rw [if_pos hp]
    have hmk := pre_underscore_eq k hk m tail hm hp
    subst hmk
    have hdrop : (m ++ '_' :: tail).drop (m.length + 1) = tail := by
      have h1 : m ++ '_' :: tail = (m ++ ['_']) ++ tail := by
        rw [List.append_assoc, List.singleton_append]
      have h2 : (m ++ ['_']).length = m.length + 1 := by simp
      rw [h1, ← h2, List.drop_left]
    rw [hdrop, tsMid_none_no_underscore tail htail]
    rfl
  · rw [if_neg hp]

theorem tsMatchAt_mid_none (m tail : Str) (hm : '_' ∉ m) (htail : '_' ∉ tail) :
    tsMatchAt (m ++ '_' :: tail) = none := by
  unfold tsMatchAt
  rw [tsAlt_mid_none _ _ _ (by decide) hm htail,
    tsAlt_mid_none _ _ _ (by decide) hm htail]

theorem tsAlt_append_ne (k m rest : Str) (hk : '_' ∉ k) (hm : '_' ∉ m)
    (hne : m ≠ k) : tsAlt k (m ++ '_' :: rest) = none := by
  unfold tsAlt
  by_cases hp : (k ++ ['_']).isPrefixOf (m ++ '_' :: rest) = true
  · exact absurd (pre_underscore_eq k hk m rest hm hp) hne
  · rw [if_neg hp]

theorem tsMatchAt_append_ne (m rest : Str) (hm : '_' ∉ m)
    (hs : m ≠ "started".toList) (hf : m ≠ "finished".toList) :
    tsMatchAt (m ++ '_' :: rest) = none := by
  unfold tsMatchAt
  rw [tsAlt_append_ne _ _ _ (by decide) hm hs, tsAlt_append_ne _ _ _ (by decide) hm hf]

theorem dollarGroup_all (t : Str) (h : ∀ c ∈ t, c ≠ '\n') : dollarGroup t = some t := by
  have htw : t.takeWhile (fun c => c != '\n') = t :=
    takeWhile_all t (fun c hc => by simp [h c hc])
  unfold dollarGroup
  simp only [htw, List.drop_length]
  rfl

theorem genAlt_self (k mid : Str) :
    genAlt k (k ++ '_' :: mid) = (dollarGroup mid).map fun g2 => (k, g2) := by
  unfold genAlt
  have hpre : (k ++ ['_']).isPrefixOf (k ++ '_' :: mid) = true := by
    have h := isPrefixOf_self_app (k ++ ['_']) mid
    rwa [List.append_assoc, List.singleton_append] at h
  have hdrop : (k ++ '_' :: mid).drop (k.length + 1) = mid := by
    have h1 : k ++ '_' :: mid = (k ++ ['_']) ++ mid := by
      rw [List.append_assoc, List.singleton_append]
    have h2 : (k ++ ['_']).length = k.length + 1 := by simp
    rw [h1, ← h2, List.drop_left]
  rw [if_pos hpre, hdrop]

theorem genAlt_none_of_pre_false (k s : Str) (h : (k ++ ['_']).isPrefixOf s = false) :
    genAlt k s = none := by
  unfold genAlt
  rw [h]
  rfl

theorem genAlt_append_ne (k m rest : Str) (hk : '_' ∉ k) (hm : '_' ∉ m)
    (hne : m ≠ k) : genAlt k (m ++ '_' :: rest) = none := by
  unfold genAlt
  by_cases hp : (k ++ ['_']).isPrefixOf (m ++ '_' :: rest) = true
  · exact absurd (pre_underscore_eq k hk m rest hm hp) hne
  · rw [if_neg hp]

theorem genericMatchAt_no_underscore (w : Str) (h : '_' ∉ w) :
    genericMatchAt w = none := by
  have hall : ∀ k : Str, (k ++ ['_']).isPrefixOf w = false := by
    intro k
    cases hp : (k ++ ['_']).isPrefixOf w with
    | false => rfl
    | true =>
      exact absurd (mem_of_isPre hp (List.mem_append.mpr (Or.inr (by simp)))) h
  unfold genericMatchAt
  rw [genAlt_none_of_pre_false _ _ (hall _), genAlt_none_of_pre_false _ _ (hall _),
    genAlt_none_of_pre_false _ _ (hall _), genAlt_none_of_pre_false _ _ (hall _),
    genAlt_none_of_pre_false _ _ (hall _)]

theorem genericMatchAt_ne_kinds (m rest : Str) (hm : '_' ∉ m)
    (hne : ∀ k ∈ genericKinds, m ≠ k) : genericMatchAt (m ++ '_' :: rest) = none := by
  unfold genericMatchAt
  rw [genAlt_append_ne _ _ _ (by decide) hm (hne _ (by simp [genericKinds])),
    genAlt_append_ne _ _ _ (by decide) hm (hne _ (by simp [genericKinds])),
    genAlt_append_ne _ _ _ (by decide) hm (hne _ (by simp [genericKinds])),
    genAlt_append_ne _ _ _ (by decide) hm (hne _ (by simp [genericKinds])),
    genAlt_append_ne _ _ _ (by decide) hm (hne _ (by simp [genericKinds]))]

theorem genericMatchAt_kind (k : Str) (hk : k ∈ genericKinds) (rest : Str) :
    genericMatchAt (k ++ '_' :: rest) = (dollarGroup rest).map fun g2 => (k, g2) := by
  fin_cases hk
  · unfold genericMatchAt
    rw [genAlt_self]
    cases h : dollarGroup rest with
    | some g2 => rfl
    | none => rfl
  · unfold genericMatchAt
    rw [genAlt_none_of_pre_false "tokenmap".toList ("schema".toList ++ '_' :: rest) rfl,
      genAlt_self]
    cases h : dollarGroup rest with
    | some g2 => rfl
    | none => rfl
  · unfold genericMatchAt
    rw [genAlt_none_of_pre_false "tokenmap".toList ("manifest".toList ++ '_' :: rest) rfl,
      genAlt_none_of_pre_false "schema".toList ("manifest".toList ++ '_' :: rest) rfl,
      genAlt_self]
    cases h : dollarGroup rest with
    | some g2 => rfl
    | none => rfl
  · unfold genericMatchAt
    rw [genAlt_none_of_pre_false "tokenmap".toList ("differential".toList ++ '_' :: rest) rfl,
      genAlt_none_of_pre_false "schema".toList ("differential".toList ++ '_' :: rest) rfl,
      genAlt_none_of_pre_false "manifest".toList ("differential".toList ++ '_' :: rest) rfl,
      genAlt_self]
    cases h : dollarGroup rest with
    | some g2 => rfl
    | none => rfl
  · unfold genericMatchAt
    rw [genAlt_none_of_pre_false "tokenmap".toList ("incremental".toList ++ '_' :: rest) rfl,
      genAlt_none_of_pre_false "schema".toList ("incremental".toList ++ '_' :: rest) rfl,
      genAlt_none_of_pre_false "manifest".toList ("incremental".toList ++ '_' :: rest) rfl,
      genAlt_none_of_pre_false "differential".toList ("incremental".toList ++ '_' :: rest) rfl,
      genAlt_self]

theorem digitChar_mem (d : Nat) : digitChar d ∈ ("0123456789".toList : Str) := by
  rcases d with _ | _ | _ | _ | _ | _ | _ | _ | _ | d <;>
    first
      | decide
      | (show ('9' : Char) ∈ ("0123456789".toList : Str)
         decide)

theorem digit_mem_props (c : Char) (h : c ∈ ("0123456789".toList : Str)) :
    c.isDigit = true ∧ c ≠ '_' ∧ c ≠ '\n' ∧ c ≠ 's' ∧ c ≠ 'f' := by
  fin_cases h <;> decide

theorem natDigits_props (n : Nat) : ∀ c ∈ natDigits n, c ∈ ("0123456789".toList : Str) := by
  intro c hc
  unfold natDigits at hc
  by_cases h : n = 0
  · rw [if_pos h] at hc
    simp at hc
    subst hc
    decide
  · rw [if_neg h] at hc
    rw [List.mem_reverse] at hc
    obtain ⟨d, _, rfl⟩ := List.mem_map.mp hc
    exact digitChar_mem d

theorem natDigits_ne_nil (n : Nat) : natDigits n ≠ [] := by
  unfold natDigits
  by_cases h : n = 0
  · rw [if_pos h]; simp
  · rw [if_neg h]
    simp [Nat.digits_ne_nil_iff_ne_zero.mpr h]

theorem digitVal_digitChar (d : Nat) (h : d < 10) : digitVal (digitChar d) = d := by
  interval_cases d <;> decide

/-- Parsing the decimal rendering recovers the timestamp (`int(str(ts)) = ts`). -/
theorem parseDigits_natDigits (n : Nat) : parseDigits (natDigits n) = n := by
  unfold natDigits
  by_cases h : n = 0
  · rw [if_pos h, h]; rfl
  · rw [if_neg h]
    unfold parseDigits
    rw [List.foldl_reverse, List.foldr_map]
    have key : ∀ L : List Nat, (∀ d ∈ L, d < 10) →
        L.foldr (fun d a => 10 * a + digitVal (digitChar d)) 0 = Nat.ofDigits 10 L := by
      intro L
      induction L with
      | nil => intro _; simp [Nat.ofDigits_nil]
      | cons d L' ih =>
        intro hall
        rw [List.foldr_cons, ih (fun x hx => hall x (by simp [hx])), Nat.ofDigits_cons,
          digitVal_digitChar d (hall d (by simp))]
        ring
    rw [key _ (fun d hd => Nat.digits_lt_base (by omega) hd)]
    exact Nat.ofDigits_digits 10 n

theorem removeAll_no_occur (pat : Str) : ∀ s : Str, hasSub pat s = false →
    removeAll pat s = s := by
  intro s
  induction s with
  | nil => intro _; rfl
  | cons c rest ih =>
    intro h
    have h0 : (pat.isPrefixOf (c :: rest) || hasSub pat rest) = false := h
    rw [Bool.or_eq_false_iff] at h0
    rw [removeAll_cons, if_neg (by simp [h0.1]), ih h0.2]

theorem removeAllFuel_length (pat : Str) : ∀ (fuel : Nat) (s : Str),
    (removeAllFuel pat fuel s).length ≤ s.length := by
  intro fuel
  induction fuel with
  | zero => intro s; cases s <;> simp [removeAllFuel]
  | succ f ih =>
    intro s
    cases s with
    | nil => simp [removeAllFuel]
    | cons c rest =>
      show (if pat.isPrefixOf (c :: rest) then removeAllFuel pat f (rest.drop (pat.length - 1))
        else c :: removeAllFuel pat f rest).length ≤ (c :: rest).length
      by_cases hp : pat.isPrefixOf (c :: rest) = true
      · rw [if_pos hp]
        calc (removeAllFuel pat f (rest.drop (pat.length - 1))).length
            ≤ (rest.drop (pat.length - 1)).length := ih _
          _ ≤ rest.length := by simp [List.length_drop]
          _ ≤ (c :: rest).length := by simp
      · rw [if_neg hp]
        simp only [List.length_cons]
        exact Nat.succ_le_succ (ih rest)

theorem removeAll_length (pat s : Str) : (removeAll pat s).length ≤ s.length :=
  removeAllFuel_length pat s.length s

theorem removeAll_length_eq (pat : Str) : ∀ s : Str,
    (removeAll pat s).length = s.length → removeAll pat s = s := by
  intro s
  induction s with
  | nil => intro _; rfl
  | cons c rest ih =>
    intro h
    rw [removeAll_cons] at h ⊢
    by_cases hp : pat.isPrefixOf (c :: rest) = true
    · rw [if_pos hp] at h
      exfalso
      have h1 : (removeAll pat (rest.drop (pat.length - 1))).length ≤ rest.length :=
        le_trans (removeAll_length _ _) (by simp [List.length_drop])
      rw [h] at h1
      simp at h1
    · rw [if_neg hp] at h ⊢
      simp only [List.length_cons] at h
      rw [ih (by omega)]

theorem removeAll_fix_no_occur (pat : Str) (hpat : pat ≠ []) : ∀ s : Str,
    removeAll pat s = s → hasSub pat s = false := by
  intro s
  induction s with
  | nil =>
    intro _
    show pat.isPrefixOf [] = false
    cases pat with
    | nil => exact absurd rfl hpat
    | cons c p => rfl
  | cons c rest ih =>
    intro h
    rw [removeAll_cons] at h
    by_cases hp : pat.isPrefixOf (c :: rest) = true
    · rw [if_pos hp] at h
      exfalso
      have h1 : (removeAll pat (rest.drop (pat.length - 1))).length ≤ rest.length :=
        le_trans (removeAll_length _ _) (by simp [List.length_drop])
      rw [h] at h1
      simp at h1
    · rw [if_neg hp] at h
      have h2 : removeAll pat rest = rest := by
        injection h
      show (pat.isPrefixOf (c :: rest) || hasSub pat rest) = false
      rw [ih h2]
      simp [hp]

/-- Removing a border-free pattern appended after a clean block removes
exactly that final occurrence. -/

theorem removeAll_append_self (pat : Str) (hpat : pat ≠ [])
    (hborder : ∀ k, 0 < k → k < pat.length → (pat.drop k).isPrefixOf pat = false) :
    ∀ nid : Str, hasSub pat nid = false → removeAll pat (nid ++ pat) = nid := by
  intro nid
  induction nid with
  | nil =>
    intro _
    show removeAll pat pat = []
    cases pat with
    | nil => exact absurd rfl hpat
    | cons c p' =>
      rw [removeAll_cons]
      have hpre : (c :: p').isPrefixOf (c :: p') = true := by
        have h := isPrefixOf_self_app (c :: p') []
        rwa [List.append_nil] at h
      rw [if_pos hpre]
      have hd : p'.drop ((c :: p').length - 1) = [] := by
        simp
      rw [hd]
      rfl
  | cons c nid' ih =>
    intro h
    have h0 : (pat.isPrefixOf (c :: nid') || hasSub pat nid') = false := h
    rw [Bool.or_eq_false_iff] at h0
    show removeAll pat (c :: (nid' ++ pat)) = c :: nid'
    rw [removeAll_cons]
    have hpf : ¬ pat.isPrefixOf (c :: (nid' ++ pat)) = true := by
      intro hp
      by_cases hl : pat.length ≤ (c :: nid').length
      · have := pre_trunc pat (c :: nid') pat hp hl
        rw [h0.1] at this
        exact absurd this (by simp)
      · push_neg at hl
        obtain ⟨_, hdroppre⟩ := pre_split pat (c :: nid') pat hp hl
        have hb := hborder (c :: nid').length (by simp) hl
        rw [hb] at hdroppre
        exact absurd hdroppre (by simp)
    rw [if_neg hpf, ih h0.2]

theorem hasSub_append_none (p : Str) :
    ∀ (a b : Str), hasSub p a = false → hasSub p b = false →
      (∀ k, 0 < k → k < p.length → (p.drop k).isPrefixOf b = false) →
      hasSub p (a ++ b) = false := by
  intro a
  induction a with
  | nil => intro b _ h2 _; exact h2
  | cons c a' ih =>
    intro b h1 h2 h3
    have h0 : (p.isPrefixOf (c :: a') || hasSub p a') = false := h1
    rw [Bool.or_eq_false_iff] at h0
    show (p.isPrefixOf (c :: (a' ++ b)) || hasSub p (a' ++ b)) = false
    have hf1 : p.isPrefixOf (c :: (a' ++ b)) = false := by
      cases hq : p.isPrefixOf (c :: (a' ++ b)) with
      | false => rfl
      | true =>
        exfalso
        by_cases hl : p.length ≤ (c :: a').length
        · have := pre_trunc p (c :: a') b hq hl
          rw [h0.1] at this
          exact absurd this (by simp)
        · push_neg at hl
          obtain ⟨_, hdroppre⟩ := pre_split p (c :: a') b hq hl
          have hb := h3 (c :: a').length (by simp) hl
          rw [hb] at hdroppre
          exact absurd hdroppre (by simp)
    rw [hf1, ih b h0.2 h2 h3]
    rfl

/-- Each single pass of `remove_extension` leaves a clean node id unchanged. -/
theorem removeExtension_stages (nid : Str) (hnid : removeExtension nid = nid) :
    removeAll jsonExt nid = nid ∧ removeAll cqlExt nid = nid
    ∧ removeAll txtExt nid = nid ∧ removeAll timestampExt nid = nid := by
  have hnid' : removeAll timestampExt (removeAll txtExt (removeAll cqlExt
      (removeAll jsonExt nid))) = nid := hnid
  have l1 := removeAll_length jsonExt nid
  have l2 := removeAll_length cqlExt (removeAll jsonExt nid)
  have l3 := removeAll_length txtExt (removeAll cqlExt (removeAll jsonExt nid))
  have l4 := removeAll_length timestampExt
    (removeAll txtExt (removeAll cqlExt (removeAll jsonExt nid)))
  have e0 : (removeAll timestampExt (removeAll txtExt (removeAll cqlExt
      (removeAll jsonExt nid)))).length = nid.length := by rw [hnid']
  have h1 : removeAll jsonExt nid = nid := removeAll_length_eq jsonExt nid (by omega)
  rw [h1] at l2 l3 l4 e0 hnid'
  have h2 : removeAll cqlExt nid = nid := removeAll_length_eq cqlExt nid (by omega)
  rw [h2] at l3 l4 e0 hnid'
  have h3 : removeAll txtExt nid = nid := removeAll_length_eq txtExt nid (by omega)
  rw [h3] at l4 e0 hnid'
  exact ⟨h1, h2, h3, hnid'⟩

/-- Decorative extensions appended to a clean node id are stripped exactly. -/
theorem removeExtension_append_ext (nid : Str) (hnid : removeExtension nid = nid) :
    ∀ ext ∈ extOptions, removeExtension (nid ++ ext) = nid := by
  obtain ⟨h1, h2, h3, h4⟩ := removeExtension_stages nid hnid
  have hno_json : hasSub jsonExt nid = false :=
    removeAll_fix_no_occur jsonExt (by decide) nid h1
  have hno_cql : hasSub cqlExt nid = false :=
    removeAll_fix_no_occur cqlExt (by decide) nid h2
  have hno_txt : hasSub txtExt nid = false :=
    removeAll_fix_no_occur txtExt (by decide) nid h3
  intro ext hext
  fin_cases hext
  · rw [List.append_nil]
    exact hnid
  · unfold removeExtension
    rw [removeAll_append_self jsonExt (by decide)
      (fun k hk1 hk2 => by
        have hk2' : k < 5 := hk2
        interval_cases k <;> decide) nid hno_json]
    rw [h2, h3, h4]
  · unfold removeExtension
    rw [removeAll_no_occur jsonExt (nid ++ cqlExt)
      (hasSub_append_none jsonExt nid cqlExt hno_json (by decide)
        (fun k hk1 hk2 => by
          have hk2' : k < 5 := hk2
          interval_cases k <;> decide))]
    rw [removeAll_append_self cqlExt (by decide)
      (fun k hk1 hk2 => by
        have hk2' : k < 4 := hk2
        interval_cases k <;> decide) nid hno_cql]
    rw [h3, h4]
  · unfold removeExtension
    rw [removeAll_no_occur jsonExt (nid ++ txtExt)
      (hasSub_append_none jsonExt nid txtExt hno_json (by decide)
        (fun k hk1 hk2 => by
          have hk2' : k < 5 := hk2
          interval_cases k <;> decide))]
    rw [removeAll_no_occur cqlExt (nid ++ txtExt)
      (hasSub_append_none cqlExt nid txtExt hno_cql (by decide)
        (fun k hk1 hk2 => by
          have hk2' : k < 4 := hk2
          interval_cases k <;> decide))]
    rw [removeAll_append_self txtExt (by decide)
      (fun k hk1 hk2 => by
        have hk2' : k < 4 := hk2
        interval_cases k <;> decide) nid hno_txt]
    rw [h4]

theorem tsKinds_drop_ne (k : Str) (hk : k = "started".toList ∨ k = "finished".toList)
    (n : Nat) (h1 : 1 ≤ n) (h2 : n ≤ k.length) :
    k.drop n ≠ "started".toList ∧ k.drop n ≠ "finished".toList := by
  rcases hk with rfl | rfl
  · have h2' : n ≤ 7 := h2
    interval_cases n <;> exact ⟨by decide, by decide⟩
  · have h2' : n ≤ 8 := h2
    interval_cases n <;> exact ⟨by decide, by decide⟩

theorem genericKinds_drop_ne (k : Str) (hk : k ∈ genericKinds) (n : Nat)
    (h1 : 1 ≤ n) (h2 : n ≤ k.length) : ∀ k2 ∈ genericKinds, k.drop n ≠ k2 := by
  fin_cases hk <;>
    · have h2' : n ≤ 12 := le_trans h2 (by decide)
      interval_cases n <;> decide

theorem genericKinds_no_underscore : ∀ k ∈ genericKinds, '_' ∉ k := by decide

theorem idxPrefix_get_props : ∀ i : Fin idxPrefix.length,
    idxPrefix.get i ≠ 's' ∧ idxPrefix.get i ≠ 'f' := by decide

theorem idxPrefix_no_newline : ∀ c ∈ idxPrefix, c ≠ '\n' := by decide

theorem extOptions_props : ∀ e ∈ extOptions, '_' ∉ e ∧ '\n' ∉ e := by decide

theorem decodeOwnerE_ts_eq (name k g2 g3 : Str) (h : tsMatch name = some (k, g2, g3)) :
    decodeOwnerE name = .ok (removeExtension g2) := by
  unfold decodeOwnerE
  rw [h]

theorem decodeOwnerE_gen_eq (name k g2 : Str) (hts : tsMatch name = none)
    (hg : genericMatch name = some (k, g2)) :
    decodeOwnerE name = .ok (removeExtension g2) := by
  unfold decodeOwnerE
  rw [hts, hg]

theorem getTimestampE_ts_eq (name k g2 g3 : Str) (h : tsMatch name = some (k, g2, g3)) :
    getTimestampE name = .ok (parseDigits g3) := by
  unfold getTimestampE
  rw [h]

/-- Matching the timestamp pattern against a well-formed timestamped index key
recovers the kind, the node id and the digit string. -/

theorem tsMatch_encodeTsKey (bn kind nid : Str) (ts : Nat)
    (hbn : ∀ c ∈ bn, c ≠ '\n')
    (hk : kind = "started".toList ∨ kind = "finished".toList)
    (hnidU : '_' ∉ nid) (hnidN : '\n' ∉ nid) :
    tsMatch (encodeTsKey bn kind nid ts) = some (kind, nid, natDigits ts) := by
  have hkU : '_' ∉ kind := by rcases hk with rfl | rfl <;> decide
  have hdsU : '_' ∉ natDigits ts ++ timestampExt := by
    intro hmem
    rcases List.mem_append.mp hmem with h | h
    · exact (digit_mem_props '_' (natDigits_props ts '_' h)).2.1 rfl
    · exact absurd h (by decide)
  have hsplit : encodeTsKey bn kind nid ts
      = (idxPrefix ++ bn ++ ['/'])
        ++ (kind ++ '_' :: (nid ++ '_' :: (natDigits ts ++ timestampExt))) := by
    unfold encodeTsKey
    simp [List.append_assoc]
  show scanBack tsMatchAt (encodeTsKey bn kind nid ts) = some (kind, nid, natDigits ts)
  rw [hsplit]
  apply scanBack_skip
  · intro c hc
    rcases List.mem_append.mp hc with h | h
    · rcases List.mem_append.mp h with h' | h'
      · exact fun he => (by decide : ('\n' : Char) ∉ idxPrefix) (he ▸ h')
      · exact hbn c h'
    · simp at h
      subst h
      decide
  apply scanBack_exact
  · simp
  · rw [tsMatchAt_kind kind hk,
      tsMid_exact nid (natDigits ts) hnidU hnidN (natDigits_ne_nil ts)
        (fun c hc => (digit_mem_props c (natDigits_props ts c hc)).1)]
    rfl
  · intro n hn
    rw [List.drop_append_eq_append_drop]
    by_cases hr1 : n ≤ kind.length
    · rw [Nat.sub_eq_zero_of_le hr1, List.drop_zero]
      obtain ⟨hs, hf⟩ := tsKinds_drop_ne kind hk n hn hr1
      exact tsMatchAt_append_ne _ _ (fun hmem => hkU (List.mem_of_mem_drop hmem)) hs hf
    · push_neg at hr1
      rw [List.drop_eq_nil_of_le (le_of_lt hr1), List.nil_append]
      obtain ⟨m, hm⟩ : ∃ m, n - kind.length = m + 1 := ⟨n - kind.length - 1, by omega⟩
      rw [hm, List.drop_succ_cons, List.drop_append_eq_append_drop]
      by_cases hr2 : m ≤ nid.length
      · rw [Nat.sub_eq_zero_of_le hr2, List.drop_zero]
        exact tsMatchAt_mid_none _ _ (fun hmem => hnidU (List.mem_of_mem_drop hmem)) hdsU
      · push_neg at hr2
        rw [List.drop_eq_nil_of_le (le_of_lt hr2), List.nil_append]
        obtain ⟨m2, hm2⟩ : ∃ m2, m - nid.length = m2 + 1 := ⟨m - nid.length - 1, by omega⟩
        rw [hm2, List.drop_succ_cons]
        exact tsMatchAt_no_underscore _ (fun hmem => hdsU (List.mem_of_mem_drop hmem))

/-- The timestamp pattern does not match a well-formed generic index key. -/
theorem tsMatch_encodeGenKey_none (bn kind nid ext : Str)
    (hs : hasSub ("started".toList ++ ['_']) bn = false)
    (hf : hasSub ("finished".toList ++ ['_']) bn = false)
    (hkU : '_' ∉ kind) (hnidU : '_' ∉ nid) (hextU : '_' ∉ ext) :
    tsMatch (encodeGenKey bn kind nid ext) = none := by
  have hne2 : '_' ∉ nid ++ ext := fun hmem =>
    (List.mem_append.mp hmem).elim (fun h => hnidU h) (fun h => hextU h)
  have hsplit : encodeGenKey bn kind nid ext
      = idxPrefix ++ (bn ++ '/' :: (kind ++ '_' :: (nid ++ ext))) := by
    unfold encodeGenKey
    rw [List.append_assoc]
  show scanBack tsMatchAt (encodeGenKey bn kind nid ext) = none
  rw [hsplit]
  apply scanBack_none
  intro n
  rw [List.drop_append_eq_append_drop]
  by_cases hr0 : n < idxPrefix.length
  · rw [Nat.sub_eq_zero_of_le (le_of_lt hr0), List.drop_zero,
      List.drop_eq_getElem_cons hr0, List.cons_append]
    exact tsMatchAt_head_ne _ _ (idxPrefix_get_props ⟨n, hr0⟩).1
      (idxPrefix_get_props ⟨n, hr0⟩).2
  · push_neg at hr0
    rw [List.drop_eq_nil_of_le hr0, List.nil_append, List.drop_append_eq_append_drop]
    by_cases hr1 : n - idxPrefix.length ≤ bn.length
    · rw [Nat.sub_eq_zero_of_le hr1, List.drop_zero]
      have hgen : ∀ k : Str, '/' ∉ k ++ ['_'] → hasSub (k ++ ['_']) bn = false →
          (k ++ ['_']).isPrefixOf (bn.drop (n - idxPrefix.length)
            ++ '/' :: (kind ++ '_' :: (nid ++ ext))) = false := by
        intro k hns hkf
        cases hq : (k ++ ['_']).isPrefixOf (bn.drop (n - idxPrefix.length)
            ++ '/' :: (kind ++ '_' :: (nid ++ ext))) with
        | false => rfl
        | true =>
          exfalso
          have h1 := isPre_through (k ++ ['_']) '/' hns _ _ hq
          have h2 := hasSub_of_pre_drop (k ++ ['_']) bn (n - idxPrefix.length) h1
          rw [hkf] at h2
          exact absurd h2 (by simp)
      unfold tsMatchAt
      rw [tsAlt_none_of_pre_false _ _ (hgen "started".toList (by decide) hs),
        tsAlt_none_of_pre_false _ _ (hgen "finished".toList (by decide) hf)]
    · push_neg at hr1
      rw [List.drop_eq_nil_of_le (le_of_lt hr1), List.nil_append]
      obtain ⟨m, hm⟩ : ∃ m, n - idxPrefix.length - bn.length = m + 1 :=
        ⟨n - idxPrefix.length - bn.length - 1, by omega⟩
      rw [hm, List.drop_succ_cons, List.drop_append_eq_append_drop]
      by_cases hr2 : m ≤ kind.length
      · rw [Nat.sub_eq_zero_of_le hr2, List.drop_zero]
        exact tsMatchAt_mid_none _ _ (fun hmem => hkU (List.mem_of_mem_drop hmem)) hne2
      · push_neg at hr2
        rw [List.drop_eq_nil_of_le (le_of_lt hr2), List.nil_append]
        obtain ⟨m2, hm2⟩ : ∃ m2, m - kind.length = m2 + 1 := ⟨m - kind.length - 1, by omega⟩
        rw [hm2, List.drop_succ_cons]
        exact tsMatchAt_no_underscore _ (fun hmem => hne2 (List.mem_of_mem_drop hmem))

/-- Matching the generic pattern against a well-formed generic index key
recovers the kind and the raw owner group (node id plus extension). -/

theorem genericMatch_encodeGenKey (bn kind nid ext : Str)
    (hbn : ∀ c ∈ bn, c ≠ '\n') (hk : kind ∈ genericKinds)
    (hnidU : '_' ∉ nid) (hnidN : '\n' ∉ nid)
    (hextU : '_' ∉ ext) (hextN : '\n' ∉ ext) :
    genericMatch (encodeGenKey bn kind nid ext) = some (kind, nid ++ ext) := by
  have hkU : '_' ∉ kind := genericKinds_no_underscore kind hk
  have hne2 : '_' ∉ nid ++ ext := fun hmem =>
    (List.mem_append.mp hmem).elim (fun h => hnidU h) (fun h => hextU h)
  have hsplit : encodeGenKey bn kind nid ext
      = (idxPrefix ++ bn ++ ['/']) ++ (kind ++ '_' :: (nid ++ ext)) := by
    unfold encodeGenKey
    simp [List.append_assoc]
  show scanBack genericMatchAt (encodeGenKey bn kind nid ext) = some (kind, nid ++ ext)
  rw [hsplit]
  apply scanBack_skip
  · intro c hc
    rcases List.mem_append.mp hc with h | h
    · rcases List.mem_append.mp h with h' | h'
      · exact fun he => (by decide : ('\n' : Char) ∉ idxPrefix) (he ▸ h')
      · exact hbn c h'
    · simp at h
      subst h
      decide
  apply scanBack_exact
  · simp
  · rw [genericMatchAt_kind kind hk,
      dollarGroup_all (nid ++ ext) (fun c hc he => by
        subst he
        exact (List.mem_append.mp hc).elim (fun h => hnidN h) (fun h => hextN h))]
    rfl
  · intro n hn
    rw [List.drop_append_eq_append_drop]
    by_cases hr1 : n ≤ kind.length
    · rw [Nat.sub_eq_zero_of_le hr1, List.drop_zero]
      exact genericMatchAt_ne_kinds _ _ (fun hmem => hkU (List.mem_of_mem_drop hmem))
        (genericKinds_drop_ne kind hk n hn hr1)
    · push_neg at hr1
      rw [List.drop_eq_nil_of_le (le_of_lt hr1), List.nil_append]
      obtain ⟨m, hm⟩ : ∃ m, n - kind.length = m + 1 := ⟨n - kind.length - 1, by omega⟩
      rw [hm, List.drop_succ_cons]
      exact genericMatchAt_no_underscore _ (fun hmem => hne2 (List.mem_of_mem_drop hmem))

/-- C3: for every well-formed index key built from a kind, a node identifier
and (for the started/finished kinds) a timestamp according to the persisted
key scheme `index/backup_index/<backup_name>/<kind>_<node_id>[<ext>|_<ts>.timestamp]`,
`get_fqdn_from_any_index_blob` decodes exactly the original node identifier,
and `get_timestamp_from_blob_name` decodes exactly the original timestamp.
Well-formedness: the backup name is newline-free and does not contain
`started_`/`finished_` as a substring, and the node identifier contains no
underscore or newline and is a fixed point of `remove_extension`. -/

theorem claim_C3_key_roundtrip (bn nid : Str) (ts : Nat)
    (hbnN : ∀ c ∈ bn, c ≠ '\n')
    (hbnS : hasSub ("started".toList ++ ['_']) bn = false)
    (hbnF : hasSub ("finished".toList ++ ['_']) bn = false)
    (hnid : ∀ c ∈ nid, c ≠ '_' ∧ c ≠ '\n')
    (hre : removeExtension nid = nid) :
    (∀ kind ∈ genericKinds, ∀ ext ∈ extOptions,
      decodeOwnerE (encodeGenKey bn kind nid ext) = .ok nid)
    ∧ (∀ kind ∈ tsKinds,
      decodeOwnerE (encodeTsKey bn kind nid ts) = .ok nid
      ∧ getTimestampE (encodeTsKey bn kind nid ts) = .ok ts) := by
  have hnidU : '_' ∉ nid := fun h => (hnid _ h).1 rfl
  have hnidN : '\n' ∉ nid := fun h => (hnid _ h).2 rfl
  constructor
  · intro kind hkind ext hext
    have hextP := extOptions_props ext hext
    have hts := tsMatch_encodeGenKey_none bn kind nid ext hbnS hbnF
      (genericKinds_no_underscore kind hkind) hnidU hextP.1
    have hg := genericMatch_encodeGenKey bn kind nid ext hbnN hkind hnidU hnidN
      hextP.1 hextP.2
    rw [decodeOwnerE_gen_eq _ kind (nid ++ ext) hts hg,
      removeExtension_append_ext nid hre ext hext]
  · intro kind hkind
    have hk2 : kind = "started".toList ∨ kind = "finished".toList := by
      fin_cases hkind
      · exact Or.inl rfl
      · exact Or.inr rfl
    have hts := tsMatch_encodeTsKey bn kind nid ts hbnN hk2 hnidU hnidN
    constructor
    · rw [decodeOwnerE_ts_eq _ kind nid (natDigits ts) hts, hre]
    · rw [getTimestampE_ts_eq _ kind nid (natDigits ts) hts, parseDigits_natDigits]

theorem claim_C3_key_roundtrip_witness :
    ((∀ c ∈ ("daily".toList : Str), c ≠ '\n')
      ∧ hasSub ("started".toList ++ ['_']) "daily".toList = false
      ∧ hasSub ("finished".toList ++ ['_']) "daily".toList = false
      ∧ (∀ c ∈ ("nodeA.example.com".toList : Str), c ≠ '_' ∧ c ≠ '\n')
      ∧ removeExtension "nodeA.example.com".toList = "nodeA.example.com".toList)
    ∧ ((∀ kind ∈ genericKinds, ∀ ext ∈ extOptions,
        decodeOwnerE (encodeGenKey "daily".toList kind "nodeA.example.com".toList ext)
          = .ok "nodeA.example.com".toList)
      ∧ (∀ kind ∈ tsKinds,
        decodeOwnerE (encodeTsKey "daily".toList kind "nodeA.example.com".toList 1700000000)
          = .ok "nodeA.example.com".toList
        ∧ getTimestampE (encodeTsKey "daily".toList kind "nodeA.example.com".toList 1700000000)
          = .ok 1700000000)) :=
  ⟨⟨by decide, by decide, by decide, by decide, by decide⟩,
   claim_C3_key_roundtrip "daily".toList "nodeA.example.com".toList 1700000000
     (by decide) (by decide) (by decide) (by decide) (by decide)⟩

end MedusaStorage

